import Mathlib

/-!
Shallow embedding of `src/portrait_patch.py` (Stardew Valley HD Portrait
Patcher, version 1.4.0).  The tool rewrites a Content Patcher mod directory:
it splits every portrait Change Entry into a "Load" and an "EditImage" entry,
writes per-image metadata sidecar files, stamps the Format field, and rewrites
the manifest dependency list.

Modelling conventions:
* JSON(5) values are the inductive `JVal`; numbers are integers (the scales the
  tool manipulates are integral; `int()` coercion of a boolean is modelled).
* Python dicts become ordered association lists (`List (String × JVal)`);
  assignment updates an existing key in place and appends a fresh key, exactly
  as for the insertion-ordered dicts produced by `json5.load`.
* `pathlib` paths become `List String` of path segments, relative to the mod
  directory (the mod directory itself is the empty prefix, which makes
  `relative_to(content_patch_dir)` the identity); `PurePath` normalisation of
  empty and "." segments is performed by `pathOfString`.
* The filesystem is an association list from paths to parsed `JVal` contents;
  a key being present is `is_file`.  Binary image files are stored as
  `JVal.null` placeholders (the tool never reads image bytes).
* Raising an exception is `Option.none`; the model covers the internal mode
  (`copy_dir is None`), the mode exercised by all the properties below.
-/

namespace PortraitPatch

/-- JSON-like value as produced by `json5.load`. -/
inductive JVal where
  | null
  | bool (b : Bool)
  | num (n : Int)
  | str (s : String)
  | arr (elems : List JVal)
  | obj (fields : List (String × JVal))
deriving Repr

/-- First value stored under a key, as Python dict lookup (keys are unique in
parsed JSON). -/
def lookupField : List (String × JVal) → String → Option JVal
  | [], _ => none
  | (k, v) :: rest, key => if k = key then some v else lookupField rest key

/-- Python dict assignment: update the key in place if present, else append. -/
def setField : List (String × JVal) → String → JVal → List (String × JVal)
  | [], key, v => [(key, v)]
  | (k, w) :: rest, key, v =>
    if k = key then (k, v) :: rest else (k, w) :: setField rest key v

/-- Python `dict.pop(key, None)`: drop the key if present. -/
def popField : List (String × JVal) → String → List (String × JVal)
  | [], _ => []
  | (k, w) :: rest, key => if k = key then rest else (k, w) :: popField rest key

/-- View a value as a JSON object. -/
def JVal.asObj? : JVal → Option (List (String × JVal))
  | .obj fields => some fields
  | _ => none

/-- View a value as a JSON array. -/
def JVal.asArr? : JVal → Option (List JVal)
  | .arr elems => some elems
  | _ => none

mutual

/-- Python structural equality `==` on parsed JSON values: objects compare as
maps (key order is irrelevant; lengths being equal makes this symmetric for
duplicate-free dicts), arrays compare pointwise. -/
def pyEq : JVal → JVal → Bool
  | .null, .null => true
  | .bool a, .bool b => a == b
  | .num a, .num b => a == b
  | .str a, .str b => a == b
  | .arr xs, .arr ys => pyEqList xs ys
  | .obj fs, .obj gs => fs.length == gs.length && pyEqFields fs gs
  | _, _ => false

/-- Pointwise `pyEq` on arrays. -/
def pyEqList : List JVal → List JVal → Bool
  | [], [] => true
  | x :: xs, y :: ys => pyEq x y && pyEqList xs ys
  | _, _ => false

/-- Every field of the first object must be present with a `pyEq` value in
the second. -/
def pyEqFields : List (String × JVal) → List (String × JVal) → Bool
  | [], _ => true
  | (k, v) :: fs, gs =>
    (match lookupField gs k with
     | some w => pyEq v w
     | none => false) && pyEqFields fs gs

end

/-! Path helpers mirroring `pathlib.PurePosixPath`. -/

/-- Paths are lists of segments, relative to the mod directory. -/
abbrev Path := List String

/-- Python `str.split(sep)` for a one-character separator (the only separators
the tool uses are "/" and "_"). -/
def splitOnCharAux (c : Char) : List Char → List Char → List String
  | [], acc => [⟨acc.reverse⟩]
  | x :: xs, acc =>
    if x == c then ⟨acc.reverse⟩ :: splitOnCharAux c xs []
    else splitOnCharAux c xs (x :: acc)

/-- Split a string on a separator character; the empty string yields one empty
piece, as in Python. -/
def splitOnChar (c : Char) (s : String) : List String :=
  splitOnCharAux c s.data []

/-- Python `sep.join(pieces)`. -/
def joinSep (sep : String) : List String → String
  | [] => ""
  | [x] => x
  | x :: xs => x ++ sep ++ joinSep sep xs

/-- Python `str.endswith`. -/
def endsWithStr (s post : String) : Bool :=
  post.data.isSuffixOf s.data

/-- Parse a path string the way `PurePosixPath` does for relative paths:
split on "/", dropping empty and "." segments. -/
def pathOfString (s : String) : Path :=
  (splitOnChar '/' s).filter (fun seg => seg != "" && seg != ".")

/-- Render a path with forward slashes, as `PurePath.as_posix`. -/
def posix (p : Path) : String :=
  joinSep "/" p

/-- Final component of a path (empty for the empty path, whose `pathlib` name
is also the empty string). -/
def lastName (p : Path) : String :=
  p.getLast?.getD ""

/-- Replace the final component, as `PurePath.with_name`. -/
def withName (p : Path) (n : String) : Path :=
  match p with
  | [] => []
  | ps => ps.dropLast ++ [n]

/-- Python `PurePath.stem` of a single name: the name with its final suffix
removed; a leading dot or a trailing dot does not count as a suffix. -/
def stemStr (s : String) : String :=
  let cs := s.data
  let j := cs.reverse.indexOf '.'
  if j = 0 ∨ cs.length - 1 ≤ j then s
  else ⟨cs.take (cs.length - 1 - j)⟩

/-- Replace the suffix of the final component, as `PurePath.with_suffix`. -/
def withSuffix (p : Path) (suffix : String) : Path :=
  match p with
  | [] => []
  | ps => ps.dropLast ++ [stemStr (ps.getLast?.getD "") ++ suffix]

/-- Stem of the final component, `PurePath.stem`. -/
def nameStem (p : Path) : String :=
  stemStr (lastName p)

/-- Stem of the parent path final component, `path.parent.stem` (the parent of
a single segment is ".", whose stem is empty). -/
def parentStem (p : Path) : String :=
  match p.dropLast.getLast? with
  | some n => stemStr n
  | none => ""

/-! Filesystem model: an association list from paths to parsed contents. -/

/-- Filesystem state of one mod directory. -/
abbrev FS := List (Path × JVal)

/-- Read a file (parsed), `none` if absent. -/
def fsRead (fs : FS) (p : Path) : Option JVal :=
  (fs.find? (fun kv => kv.1 == p)).map (·.2)

/-- Remove a file. -/
def fsErase (fs : FS) (p : Path) : FS :=
  fs.filter (fun kv => kv.1 != p)

/-- Write a file, replacing any existing entry for the path (the order of the
directory listing is an artifact of the model; the OS fixes no order). -/
def fsWrite (fs : FS) (p : Path) (v : JVal) : FS :=
  (p, v) :: fsErase fs p

/-- Python `Path.is_file`. -/
def fsIsFile (fs : FS) (p : Path) : Bool :=
  (fsRead fs p).isSome

/-- Python `Path.rename`, failing like the OS call when the source is absent. -/
def fsRename (fs : FS) (src dst : Path) : Option FS :=
  (fsRead fs src).map (fun v => fsWrite (fsErase fs src) dst v)

/-! Globbing, mirroring `Path.glob` with single-segment `*` wildcards. -/

/-- Match one glob segment against one name; `*` matches any character run.
The fuel makes the classic two-list recursion structural; each call consumes
one character of pattern or name, so the initial fuel suffices. -/
def segMatchAux : Nat → List Char → List Char → Bool
  | 0, _, _ => false
  | _ + 1, [], cs => cs.isEmpty
  | fuel + 1, '*' :: ps, [] => segMatchAux fuel ps []
  | fuel + 1, '*' :: ps, c :: cs =>
    segMatchAux fuel ps (c :: cs) || segMatchAux fuel ('*' :: ps) cs
  | _ + 1, _ :: _, [] => false
  | fuel + 1, p :: ps, c :: cs => p == c && segMatchAux fuel ps cs

/-- Match one glob segment against one name. -/
def segMatch (ps cs : List Char) : Bool :=
  segMatchAux (ps.length + cs.length + 1) ps cs

/-- Match a glob pattern path against a concrete path, segment by segment. -/
def globMatch (pat : Path) (p : Path) : Bool :=
  pat.length == p.length && (pat.zip p).all (fun x => segMatch x.1.data x.2.data)

/-- Python `content_patch_dir.glob(pattern)` over the modelled filesystem:
the existing paths that match, in filesystem order. -/
def fsGlob (fs : FS) (pattern : String) : List Path :=
  (fs.map (·.1)).filter (globMatch (pathOfString pattern))

/-! Template tokens: the regex `\x7b\x7b[a-zA-Z0-9_./]+\x7d\x7d`. -/

/-- Characters admitted inside a Content Patcher token. -/
def tokenChar (c : Char) : Bool :=
  c.isAlphanum || c == '_' || c == '.' || c == '/'

/-- When a token match of the regex starts exactly at the head of the input,
return the text after the match.  The character class excludes braces, so the
regex engine finds a match here exactly when the literal layout is
open-open, a nonempty admitted run, close-close. -/
def tokenMatchAt (cs : List Char) : Option (List Char) :=
  match cs with
  | '\x7b' :: '\x7b' :: rest =>
    if (rest.takeWhile tokenChar).isEmpty then none
    else
      match rest.drop (rest.takeWhile tokenChar).length with
      | '\x7d' :: '\x7d' :: tail => some tail
      | _ => none
  | _ => none

/-- A token match consumes at least four characters. -/
theorem tokenMatchAt_length {cs tail : List Char} (h : tokenMatchAt cs = some tail) :
    tail.length < cs.length := by
  unfold tokenMatchAt at h
  split at h
  next rest =>
    split at h
    · exact absurd h (by simp)
    · split at h
      next tail' heq =>
        cases h
        have hd := congrArg List.length heq
        rw [List.length_drop] at hd
        simp only [List.length_cons] at hd ⊢
        omega
      next => exact absurd h (by simp)
  next => exact absurd h (by simp)

/-- Python `pattern.search(s)`: does a token match start anywhere in `s`? -/
def hasTokenAux : List Char → Bool
  | [] => false
  | c :: cs => (tokenMatchAt (c :: cs)).isSome || hasTokenAux cs

/-- Search for a template token in a string, `content_patcher_token.search`. -/
def hasToken (s : String) : Bool :=
  hasTokenAux s.data

/-- Python `re.sub(token, "*", s)` scanning: replace each leftmost match by a
single `*` and continue after it. -/
def subTokensAux : Nat → List Char → List Char
  | 0, cs => cs
  | _ + 1, [] => []
  | fuel + 1, c :: cs =>
    match tokenMatchAt (c :: cs) with
    | some tail => '*' :: subTokensAux fuel tail
    | none => c :: subTokensAux fuel cs

/-- Replace every template token occurrence with the wildcard `*`. -/
def replaceTokens (s : String) : String :=
  ⟨subTokensAux s.data.length s.data⟩

/-! The program functions, translated from `src/portrait_patch.py`. -/

/-- Lines 67-69: prefer an existing `.bak` copy of a file. -/
def _get_file_or_backup (fs : FS) (file : Path) : Path :=
  let backup_file := withSuffix file ".bak"
  if fsIsFile fs backup_file then backup_file else file

/-- Lines 72-85 with `copy_dir is None` (internal mode): rename the file to
its `.bak` sibling unless forced or the backup already exists, then write the
data under the `.json` name.  The rename fails like the OS call when the file
is absent. -/
def _write_and_backup (fs : FS) (file : Path) (json_data : JVal)
    (force_rewrite : Bool) : Option FS :=
  match
    (if !force_rewrite && !fsIsFile fs (withSuffix file ".bak") then
      fsRename fs file (withSuffix file ".bak")
    else some fs) with
  | none => none
  | some fs1 => some (fsWrite fs1 (withSuffix file ".json") json_data)

/-- Lines 35-42: metadata file of a portrait image, suffixed with the target
variant unless the image stem already carries it. -/
def _get_variant_metadata_file (portrait_file : Path) (variant : Option String)
    (VARIANT_SEPARATOR : String) : Path :=
  let stm := stemStr (lastName portrait_file)
  match variant with
  | none => withSuffix (withName portrait_file stm) ".json"
  | some v =>
    withSuffix
      (withName portrait_file
        (if endsWithStr stm v then stm else stm ++ VARIANT_SEPARATOR ++ v))
      ".json"

/-- Line 93. -/
def HD_PORTRAITS_DEPENDENCY : JVal :=
  .obj [("UniqueID", .str "tlitookilakin.HDPortraits")]

/-- Line 92. -/
def PYTK_DEPENDENCY : JVal :=
  .obj [("UniqueID", .str "Platonymous.Toolkit")]

/-- Line 103, with `__version__ = "1.4.0"`. -/
def GENERATED_BY : String :=
  "Generated by Portrait Patcher 1.4.0, by purplexpresso. Licensed under GPLv3."

/-- Python `list.remove` except that a missing value is a silent no-op
(the source wraps the call in try/except ValueError). -/
def removeFirstPy (x : JVal) : List JVal → List JVal
  | [] => []
  | y :: ys => if pyEq x y then ys else y :: removeFirstPy x ys

/-- Python `x in xs` membership by structural equality. -/
def containsPy (xs : List JVal) (x : JVal) : Bool :=
  xs.any (fun y => pyEq x y)

/-- Reading `manifest_dict["Dependencies"]` on `defaultdict(list, ...)`: a
missing key is materialised as an empty list, appended in insertion order. -/
def getDefaultList (fields : List (String × JVal)) (key : String) :
    List (String × JVal) × JVal :=
  match lookupField fields key with
  | some v => (fields, v)
  | none => (fields ++ [(key, .arr [])], .arr [])

/-- Lines 88-105, value level: append the HDPortraits dependency when absent,
drop the PyTK dependency when present, stamp the generator signature. -/
def updateDependenciesVal (manifest : JVal) : Option JVal :=
  match manifest.asObj? with
  | none => none
  | some fields0 =>
    match getDefaultList fields0 "Dependencies" with
    | (fields, depsVal) =>
      match depsVal.asArr? with
      | none => none
      | some deps0 =>
        let deps1 :=
          if !containsPy deps0 HD_PORTRAITS_DEPENDENCY then
            deps0 ++ [HD_PORTRAITS_DEPENDENCY]
          else deps0
        let deps2 := removeFirstPy PYTK_DEPENDENCY deps1
        some (.obj (setField (setField fields "Dependencies" (.arr deps2))
          "GeneratedBy" (.str GENERATED_BY)))

/-- Lines 88-105: open the manifest file and rewrite its dependency list. -/
def update_dependencies (fs : FS) (manifest_file : Path) : Option JVal :=
  match fsRead fs manifest_file with
  | none => none
  | some v => updateDependenciesVal v

/-- Lines 108-135: read the legacy `.pytk.json` sidecar; a missing file yields
`some none` (the Python function returns None), a present but malformed one is
an uncaught exception (`none`).  `int()` coercion of a boolean Scale is kept;
`STARDEW_PORTRAIT_SIZE = 64`. -/
def create_metadata_json (fs : FS) (portrait_file : Path) (target_name : String) :
    Option (Option JVal) :=
  match fsRead fs (withSuffix portrait_file ".pytk.json") with
  | none => some none
  | some v =>
    match v.asObj? with
    | none => none
    | some fields =>
      match lookupField fields "Scale" with
      | some (.num n) =>
        some (some (.obj [("Size", .num (n * 64)), ("Portrait", .str target_name)]))
      | some (.bool b) =>
        some (some (.obj [("Size", .num ((if b then 1 else 0) * 64)),
          ("Portrait", .str target_name)]))
      | _ => none

/-- Lines 147-149. -/
inductive FileParsed where
  | individual
  | globbed
deriving DecidableEq, Repr

/-- Lookup in the `parsed_metadata_files` tracking dict. -/
def parsedLookup (ps : List (Path × FileParsed)) (p : Path) : Option FileParsed :=
  (ps.find? (fun kv => kv.1 == p)).map (·.2)

/-- Assignment into the tracking dict: update in place or append. -/
def parsedSet (ps : List (Path × FileParsed)) (p : Path) (fp : FileParsed) :
    List (Path × FileParsed) :=
  match ps with
  | [] => [(p, fp)]
  | (q, v) :: rest => if q == p then (q, fp) :: rest else (q, v) :: parsedSet rest p fp

/-- State threaded through the rewrite loop of `content_patcher_portraits`.
`store` holds the original Change Entry objects, mutated in place by the loop;
`changes` is the live `content_dict["Changes"]` list, holding references into
the store (`Sum.inl`) next to freshly inserted entries (`Sum.inr`); `globLog`
is an observer recording the metadata paths written by the glob branch. -/
structure LoopState where
  store : List JVal
  changes : List (Nat ⊕ JVal)
  parsed : List (Path × FileParsed)
  fs : FS
  globLog : List Path

/-- Python `list.insert`, which clamps an out-of-range index to an append. -/
def insertAt (n : Nat) (a : α) (l : List α) : List α :=
  l.take n ++ a :: l.drop n

/-- Lines 191-199 acting on the shared entry object: drop `PatchMode`, then
set `Action`, `Target` and `FromFile` for the "Load" entry. -/
def loadItemOf (hd_portraits : Path) (fields : List (String × JVal))
    (portrait_name metadata_file : Path) : List (String × JVal) :=
  setField
    (setField
      (setField (popField fields "PatchMode") "Action" (.str "Load"))
      "Target" (.str (posix (hd_portraits ++ [nameStem portrait_name]))))
    "FromFile" (.str (posix metadata_file))

/-- Lines 191-205 acting on the deep copy: the "EditImage" entry. -/
def editItemOf (hd_portraits_patch : Path) (fields : List (String × JVal))
    (portrait_name portrait_file : Path) : List (String × JVal) :=
  setField
    (setField
      (setField (popField fields "PatchMode") "Action" (.str "EditImage"))
      "Target" (.str (posix (hd_portraits_patch ++ [nameStem portrait_name]))))
    "FromFile" (.str (posix portrait_file))

/-- Lines 176-179: variant suffix of the target stem (everything after the
first underscore), or none when empty. -/
def targetVariantOf (stem : String) : Option String :=
  let tv := joinSep "_" ((splitOnChar '_' stem).tail)
  if tv = "" then none else some tv

/-- Lines 215-239: the inner loop over glob matches.  The resolved metadata
path is recorded as GLOBBED before the legacy sidecar is read; already
recorded paths are skipped; writes are forced. -/
def globLoop (variant : Option String) (editTarget : String) :
    List Path → List (Path × FileParsed) → FS → List Path →
    Option (List (Path × FileParsed) × FS × List Path)
  | [], parsed, fs, log => some (parsed, fs, log)
  | g :: rest, parsed, fs, log =>
    let gm := _get_variant_metadata_file g variant "_"
    if (parsedLookup parsed gm).isSome then
      globLoop variant editTarget rest parsed fs log
    else
      match create_metadata_json fs g editTarget with
      | none => none
      | some none => globLoop variant editTarget rest (parsedSet parsed gm .globbed) fs log
      | some (some v) =>
        match _write_and_backup fs gm v true with
        | none => none
        | some fs1 =>
          globLoop variant editTarget rest (parsedSet parsed gm .globbed) fs1 (log ++ [gm])

/-- Lines 171-260, the body of the rewrite loop for the entry with original
index `i`.  A non-portrait entry leaves the state untouched.  A qualifying
entry is mutated in the store into its "Load" form, the "EditImage" copy is
inserted at index `2 * i` of the live list (clamped, as `list.insert`), and
the sidecar is produced through the glob branch or the individual branch. -/
def step (hd_portraits hd_portraits_patch : Path) (i : Nat) (e : JVal)
    (st : LoopState) : Option LoopState :=
  match e.asObj? with
  | none => none
  | some fields =>
    match lookupField fields "Target" with
    | some (.str targetStr) =>
      let portrait_name := pathOfString targetStr
      if parentStem portrait_name ≠ "Portraits" then
        some st
      else
        match lookupField fields "FromFile" with
        | some (.str fromFileStr) =>
          let target_variant := targetVariantOf (nameStem portrait_name)
          let portrait_file := pathOfString fromFileStr
          let metadata_file := _get_variant_metadata_file portrait_file target_variant "_"
          let editTarget := posix (hd_portraits_patch ++ [nameStem portrait_name])
          let store := st.store.set i
            (.obj (loadItemOf hd_portraits fields portrait_name metadata_file))
          let changes :=
            insertAt (2 * i)
              (Sum.inr (.obj (editItemOf hd_portraits_patch fields portrait_name portrait_file)))
              st.changes
          if hasToken (nameStem portrait_file) then
            match globLoop target_variant editTarget
                (fsGlob st.fs (replaceTokens (posix portrait_file))) st.parsed st.fs st.globLog with
            | none => none
            | some (parsed, fs, log) =>
              some { store := store, changes := changes, parsed := parsed, fs := fs, globLog := log }
          else if fsIsFile st.fs portrait_file then
            if parsedLookup st.parsed metadata_file = some .individual then
              some { st with store := store, changes := changes }
            else
              match create_metadata_json st.fs portrait_file editTarget with
              | none => none
              | some none =>
                some { st with store := store, changes := changes, parsed := parsedSet st.parsed metadata_file FileParsed.individual }
              | some (some v) =>
                match _write_and_backup st.fs metadata_file v true with
                | none => none
                | some fs =>
                  some { st with store := store, changes := changes, parsed := parsedSet st.parsed metadata_file FileParsed.individual, fs := fs }
          else
            some { st with store := store, changes := changes }
        | _ => none
    | _ => none

/-- The enumerated `for` loop of lines 171-260 over a copy of the original
entry list (each entry object is read at its own iteration, before its own
mutation, so reading the enumerated originals is faithful). -/
def stepLoop (hd_portraits hd_portraits_patch : Path) :
    List (Nat × JVal) → LoopState → Option LoopState
  | [], st => some st
  | (i, e) :: rest, st =>
    match step hd_portraits hd_portraits_patch i e st with
    | none => none
    | some st1 => stepLoop hd_portraits hd_portraits_patch rest st1

/-- Materialise a live-list element: references read the (possibly mutated)
store, inserted entries are themselves. -/
def resolveRef (store : List JVal) : Nat ⊕ JVal → JVal
  | .inl j => store.getD j .null
  | .inr v => v

/-- The whole rewrite loop over the Changes list: final entry list, final
filesystem and the log of glob-branch sidecar writes. -/
def processChanges (hd_portraits hd_portraits_patch : Path)
    (origEntries : List JVal) (fs : FS) :
    Option (List JVal × FS × List Path) :=
  match stepLoop hd_portraits hd_portraits_patch origEntries.enum
      { store := origEntries,
        changes := (List.range origEntries.length).map Sum.inl,
        parsed := [], fs := fs, globLog := [] } with
  | none => none
  | some st => some (st.changes.map (resolveRef st.store), st.fs, st.globLog)

/-- Path of the patch document. -/
def contentJsonPath : Path := ["content.json"]

/-- Path of the manifest document. -/
def manifestJsonPath : Path := ["manifest.json"]

/-- Lines 152-279 in internal mode (`copy_dir is None`): load the patch
document (preferring a backup), rewrite the Changes list producing sidecars,
stamp `Format`, write the document back with the backup discipline, then load,
rewrite and write back the manifest the same way. -/
def content_patcher_portraits (fs : FS) (hd_portraits hd_portraits_patch : Path) :
    Option FS :=
  let content_file := _get_file_or_backup fs contentJsonPath
  match fsRead fs content_file with
  | none => none
  | some contentVal =>
    match contentVal.asObj? with
    | none => none
    | some contentFields =>
      match lookupField contentFields "Changes" with
      | none => none
      | some changesVal =>
        match changesVal.asArr? with
        | none => none
        | some origEntries =>
          match processChanges hd_portraits hd_portraits_patch origEntries fs with
          | none => none
          | some (finalChanges, fs1, _) =>
            match _write_and_backup fs1 content_file
                (.obj (setField (setField contentFields "Changes" (.arr finalChanges))
                  "Format" (.str "1.28.0"))) false with
            | none => none
            | some fs2 =>
              let manifest_file := _get_file_or_backup fs2 manifestJsonPath
              match update_dependencies fs2 manifest_file with
              | none => none
              | some manifestOut =>
                _write_and_backup fs2 manifest_file manifestOut false

mutual

/-- Modelled from the spec: `json5.dump` (with quoted keys) is an external
collaborator (spec section 1, out of scope); any concrete deterministic
rendering witnesses that equal documents serialise to identical bytes. -/
def json5_dump : JVal → String
  | .null => "null"
  | .bool b => if b then "true" else "false"
  | .num n => toString n
  | .str s => "\"" ++ s ++ "\""
  | .arr xs => "[" ++ dumpList xs ++ "]"
  | .obj fs => "\x7b" ++ dumpFields fs ++ "\x7d"

/-- Comma-separated rendering of array elements. -/
def dumpList : List JVal → String
  | [] => ""
  | [x] => json5_dump x
  | x :: xs => json5_dump x ++ ", " ++ dumpList xs

/-- Comma-separated rendering of object fields with quoted keys. -/
def dumpFields : List (String × JVal) → String
  | [] => ""
  | [(k, v)] => "\"" ++ k ++ "\": " ++ json5_dump v
  | (k, v) :: fs => "\"" ++ k ++ "\": " ++ json5_dump v ++ ", " ++ dumpFields fs

end

/-! Basic lemmas about the filesystem and dictionary operations. -/

theorem fsRead_cons (k : Path) (v : JVal) (fs : FS) (q : Path) :
    fsRead ((k, v) :: fs) q = if k = q then some v else fsRead fs q := by
  by_cases h : k = q
  · simp [fsRead, List.find?_cons_of_pos, h]
  · have hb : ((k, v).1 == q) = false := by simpa using h
    simp only [fsRead, List.find?, hb, if_neg h]

theorem fsErase_cons_self (k : Path) (v : JVal) (rest : FS) :
    fsErase ((k, v) :: rest) k = fsErase rest k := by
  simp [fsErase, List.filter_cons]

theorem fsErase_cons_ne (k : Path) (v : JVal) (rest : FS) (p : Path) (h : k ≠ p) :
    fsErase ((k, v) :: rest) p = (k, v) :: fsErase rest p := by
  simp [fsErase, List.filter_cons, h]

theorem fsRead_fsErase (fs : FS) (p q : Path) :
    fsRead (fsErase fs p) q = if q = p then none else fsRead fs q := by
  induction fs with
  | nil => simp [fsErase, fsRead]
  | cons kv rest ih =>
    rcases kv with ⟨k, v⟩
    by_cases hkp : k = p
    · subst hkp
      rw [fsErase_cons_self, ih, fsRead_cons]
      by_cases hqp : q = k
      · simp [hqp]
      · have hkq : ¬k = q := fun h => hqp h.symm
        simp [hqp, hkq]
    · rw [fsErase_cons_ne k v rest p hkp, fsRead_cons, fsRead_cons, ih]
      by_cases hkq : k = q
      · subst hkq
        have hqp : ¬k = p := hkp
        simp [hqp, hkp]
      · simp [hkq]

theorem fsRead_fsWrite (fs : FS) (p : Path) (v : JVal) (q : Path) :
    fsRead (fsWrite fs p v) q = if p = q then some v else fsRead fs q := by
  rw [fsWrite, fsRead_cons, fsRead_fsErase]
  by_cases h : p = q
  · simp [h]
  · have hqp : ¬q = p := fun hh => h hh.symm
    simp [h, hqp]

theorem fsRead_fsWrite_self (fs : FS) (p : Path) (v : JVal) :
    fsRead (fsWrite fs p v) p = some v := by
  simp [fsRead_fsWrite]

theorem fsRead_fsWrite_ne (fs : FS) (p : Path) (v : JVal) (q : Path) (h : p ≠ q) :
    fsRead (fsWrite fs p v) q = fsRead fs q := by
  simp [fsRead_fsWrite, h]

theorem parsedLookup_cons (k : Path) (v : FileParsed)
    (ps : List (Path × FileParsed)) (q : Path) :
    parsedLookup ((k, v) :: ps) q = if k = q then some v else parsedLookup ps q := by
  by_cases h : k = q
  · simp [parsedLookup, List.find?_cons_of_pos, h]
  · have hb : ((k, v).1 == q) = false := by simpa using h
    simp only [parsedLookup, List.find?, hb, if_neg h]

theorem parsedLookup_parsedSet (ps : List (Path × FileParsed)) (p : Path)
    (fp : FileParsed) (q : Path) :
    parsedLookup (parsedSet ps p fp) q =
      if q = p then some fp else parsedLookup ps q := by
  induction ps with
  | nil =>
    rw [parsedSet, parsedLookup_cons]
    by_cases h : q = p
    · simp [h]
    · have hpq : ¬p = q := fun hh => h hh.symm
      simp [h, hpq, parsedLookup]
  | cons kv rest ih =>
    rcases kv with ⟨k, v⟩
    by_cases hkp : k = p
    · subst hkp
      have hset : parsedSet ((k, v) :: rest) k fp = (k, fp) :: rest := by
        simp [parsedSet]
      rw [hset, parsedLookup_cons, parsedLookup_cons]
      by_cases hkq : k = q
      · subst hkq
        simp
      · have hqk : ¬q = k := fun h => hkq h.symm
        simp [hkq, hqk]
    · have hkp2 : (k == p) = false := by simpa using hkp
      have hset : parsedSet ((k, v) :: rest) p fp = (k, v) :: parsedSet rest p fp := by
        rw [parsedSet, hkp2]; simp
      rw [hset, parsedLookup_cons, parsedLookup_cons, ih]
      by_cases hkq : k = q
      · subst hkq
        have hqp : ¬k = p := hkp
        simp [hqp, hkp]
      · simp [hkq]

theorem lookupField_setField (fields : List (String × JVal)) (k : String) (v : JVal)
    (q : String) :
    lookupField (setField fields k v) q =
      if q = k then some v else lookupField fields q := by
  induction fields with
  | nil =>
    simp only [setField, lookupField]
    by_cases h : q = k
    · simp [h]
    · have hkq : ¬k = q := fun hh => h hh.symm
      simp [h, hkq]
  | cons kv rest ih =>
    rcases kv with ⟨a, b⟩
    by_cases hak : a = k
    · subst hak
      simp only [setField, if_pos rfl]
      by_cases hqa : q = a
      · simp [lookupField, hqa]
      · have haq : ¬a = q := fun h => hqa h.symm
        simp [lookupField, hqa, haq]
    · simp only [setField, if_neg hak]
      by_cases haq : a = q
      · subst haq
        have hqa : ¬a = k := hak
        simp [lookupField, hqa]
      · simp [lookupField, haq, ih]

theorem lookupField_popField_ne (fields : List (String × JVal)) (k q : String)
    (h : q ≠ k) :
    lookupField (popField fields k) q = lookupField fields q := by
  induction fields with
  | nil => simp [popField]
  | cons kv rest ih =>
    rcases kv with ⟨a, b⟩
    by_cases hak : a = k
    · subst hak
      have haq : ¬a = q := fun hh => h hh.symm
      simp [popField, lookupField, haq]
    · simp only [popField, if_neg hak, lookupField]
      by_cases haq : a = q
      · simp [haq]
      · simp [haq, ih]

theorem lookupField_none_of_not_mem (fields : List (String × JVal)) (k : String)
    (h : k ∉ fields.map Prod.fst) :
    lookupField fields k = none := by
  induction fields with
  | nil => simp [lookupField]
  | cons kv rest ih =>
    rcases kv with ⟨a, b⟩
    simp only [List.map_cons, List.mem_cons] at h
    push_neg at h
    have hak : ¬a = k := fun hh => h.1 hh.symm
    simp only [lookupField, if_neg hak]
    exact ih h.2

theorem lookupField_popField_self (fields : List (String × JVal)) (k : String)
    (hnd : (fields.map Prod.fst).Nodup) :
    lookupField (popField fields k) k = none := by
  induction fields with
  | nil => simp [popField, lookupField]
  | cons kv rest ih =>
    rcases kv with ⟨a, b⟩
    simp only [List.map_cons, List.nodup_cons] at hnd
    by_cases hak : a = k
    · subst hak
      simp only [popField, if_pos rfl]
      exact lookupField_none_of_not_mem rest a hnd.1
    · simp only [popField, if_neg hak, lookupField, if_neg hak]
      exact ih hnd.2

/-! Shape and evolution invariants of the rewrite loop. -/

/-- Shape of every document written by sidecar generation. -/
def isSidecarVal (v : JVal) : Prop :=
  ∃ n s, v = JVal.obj [("Size", .num n), ("Portrait", .str s)]

/-- How the loop is allowed to change the filesystem: any path is either
untouched or holds a sidecar document under a `.json`-suffixed name. -/
def FsEvolves (fs fs' : FS) : Prop :=
  ∀ q, fsRead fs' q = fsRead fs q ∨
    ((∃ p, q = withSuffix p ".json") ∧ ∃ v, fsRead fs' q = some v ∧ isSidecarVal v)

theorem fsEvolves_refl (fs : FS) : FsEvolves fs fs :=
  fun _ => Or.inl rfl

theorem fsEvolves_trans {fs1 fs2 fs3 : FS} (h1 : FsEvolves fs1 fs2)
    (h2 : FsEvolves fs2 fs3) : FsEvolves fs1 fs3 := by
  intro q
  rcases h2 q with h2q | h2q
  · rcases h1 q with h1q | h1q
    · exact Or.inl (h2q.trans h1q)
    · exact Or.inr ⟨h1q.1, h1q.2.imp (fun v hv => ⟨h2q.trans hv.1, hv.2⟩)⟩
  · exact Or.inr h2q

theorem fsEvolves_write (fs : FS) (p : Path) (v : JVal) (hv : isSidecarVal v) :
    FsEvolves fs (fsWrite fs (withSuffix p ".json") v) := by
  intro q
  by_cases hq : withSuffix p ".json" = q
  · subst hq
    exact Or.inr ⟨⟨p, rfl⟩, v, fsRead_fsWrite_self _ _ _, hv⟩
  · exact Or.inl (fsRead_fsWrite_ne _ _ _ _ hq)

/-- Every successfully generated metadata document has the sidecar shape. -/
theorem create_metadata_json_sidecar {fs : FS} {p : Path} {t : String} {v : JVal}
    (h : create_metadata_json fs p t = some (some v)) : isSidecarVal v := by
  unfold create_metadata_json at h
  split at h
  · simp at h
  · split at h
    · exact Option.noConfusion h
    · split at h
      · cases h; exact ⟨_, _, rfl⟩
      · cases h; exact ⟨_, _, rfl⟩
      · exact Option.noConfusion h

/-- A forced write never touches the backup: it is a plain overwrite of the
`.json` name. -/
theorem _write_and_backup_force (fs : FS) (file : Path) (v : JVal) :
    _write_and_backup fs file v true = some (fsWrite fs (withSuffix file ".json") v) := rfl

/-- Tracking-set monotonicity: recorded paths stay recorded. -/
def ParsedMono (a b : List (Path × FileParsed)) : Prop :=
  ∀ q, (parsedLookup a q).isSome = true → (parsedLookup b q).isSome = true

theorem parsedMono_refl (a : List (Path × FileParsed)) : ParsedMono a a :=
  fun _ h => h

theorem parsedMono_trans {a b c : List (Path × FileParsed)}
    (h1 : ParsedMono a b) (h2 : ParsedMono b c) : ParsedMono a c :=
  fun q h => h2 q (h1 q h)

theorem parsedMono_set (a : List (Path × FileParsed)) (p : Path) (fp : FileParsed) :
    ParsedMono a (parsedSet a p fp) := by
  intro q h
  rw [parsedLookup_parsedSet]
  by_cases hq : q = p <;> simp [hq, h]

/-- Invariant tying the glob-write log to the tracking set: the log has no
duplicates and every logged path is recorded. -/
def LogInv (parsed : List (Path × FileParsed)) (log : List Path) : Prop :=
  log.Nodup ∧ ∀ p ∈ log, (parsedLookup parsed p).isSome = true

/-- The pure effect of one loop iteration on the store and the live Changes
list (the entry mutation and the `list.insert` at `2 * i`); sidecar generation
does not touch either, so a successful `step` realises exactly this update. -/
def stepCS (hd_portraits hd_portraits_patch : Path)
    (sc : List JVal × List (Nat ⊕ JVal)) (ie : Nat × JVal) :
    List JVal × List (Nat ⊕ JVal) :=
  match ie.2.asObj? with
  | none => sc
  | some fields =>
    match lookupField fields "Target" with
    | some (.str targetStr) =>
      let portrait_name := pathOfString targetStr
      if parentStem portrait_name ≠ "Portraits" then sc
      else
        match lookupField fields "FromFile" with
        | some (.str fromFileStr) =>
          let portrait_file := pathOfString fromFileStr
          let metadata_file :=
            _get_variant_metadata_file portrait_file
              (targetVariantOf (nameStem portrait_name)) "_"
          (sc.1.set ie.1
            (.obj (loadItemOf hd_portraits fields portrait_name metadata_file)),
           insertAt (2 * ie.1)
            (Sum.inr (.obj (editItemOf hd_portraits_patch fields portrait_name portrait_file)))
            sc.2)
        | _ => sc
    | _ => sc

/-- The inner glob loop only performs forced sidecar writes, only grows the
tracking set, and keeps the write log duplicate-free and recorded. -/
theorem globLoop_spec (tv : Option String) (tgt : String) (ms : List Path)
    {parsed : List (Path × FileParsed)} {fs : FS} {log : List Path}
    {parsed' : List (Path × FileParsed)} {fs' : FS} {log' : List Path}
    (h : globLoop tv tgt ms parsed fs log = some (parsed', fs', log')) :
    FsEvolves fs fs' ∧ ParsedMono parsed parsed' ∧
      (LogInv parsed log → LogInv parsed' log') := by
  induction ms generalizing parsed fs log with
  | nil =>
    simp only [globLoop, Option.some.injEq, Prod.mk.injEq] at h
    obtain ⟨h1, h2, h3⟩ := h
    subst h1; subst h2; subst h3
    exact ⟨fsEvolves_refl _, parsedMono_refl _, fun hi => hi⟩
  | cons g rest ih =>
    simp only [globLoop] at h
    split at h
    next hsk =>
      exact ih h
    next hns =>
      split at h
      next => exact Option.noConfusion h
      next hcr =>
        obtain ⟨he, hm, hl⟩ := ih h
        refine ⟨he, parsedMono_trans (parsedMono_set _ _ _) hm, ?_⟩
        intro hi
        exact hl ⟨hi.1, fun p hp => (parsedMono_set _ _ _) p (hi.2 p hp)⟩
      next v hcr =>
        split at h
        next => exact Option.noConfusion h
        next fs1 hw =>
          obtain ⟨he, hm, hl⟩ := ih h
          rw [_write_and_backup_force] at hw
          cases hw
          refine ⟨fsEvolves_trans
              (fsEvolves_write _ _ _ (create_metadata_json_sidecar hcr)) he,
            parsedMono_trans (parsedMono_set _ _ _) hm, ?_⟩
          intro hi
          apply hl
          constructor
          · rw [List.nodup_append]
            refine ⟨hi.1, List.nodup_singleton _, ?_⟩
            intro p hp hp2
            simp only [List.mem_singleton] at hp2
            subst hp2
            have hsome := hi.2 _ hp
            simp [hsome] at hns
          · intro p hp
            rcases List.mem_append.mp hp with hp | hp
            · exact (parsedMono_set _ _ _) p (hi.2 p hp)
            · simp only [List.mem_singleton] at hp
              subst hp
              rw [parsedLookup_parsedSet]
              simp

/-- Skipping in the glob loop: a match whose resolved metadata path is already
recorded changes nothing and continues with the remaining matches. -/
theorem globLoop_skip (tv : Option String) (tgt : String) (g : Path)
    (rest : List Path) (parsed : List (Path × FileParsed)) (fs : FS)
    (log : List Path)
    (h : (parsedLookup parsed (_get_variant_metadata_file g tv "_")).isSome = true) :
    globLoop tv tgt (g :: rest) parsed fs log =
      globLoop tv tgt rest parsed fs log := by
  simp only [globLoop, h, if_true]

/-- Case analysis of a successful loop iteration: the store and live list are
updated exactly as `stepCS` says, and the tracking set, filesystem and log
either stay put, or evolve through the glob loop, or perform one individual
recording with an optional forced sidecar write. -/
theorem step_cases (hdP hdPP : Path) (i : Nat) (e : JVal) (st st' : LoopState)
    (h : step hdP hdPP i e st = some st') :
    (st'.store, st'.changes) = stepCS hdP hdPP (st.store, st.changes) (i, e) ∧
    ((st'.parsed = st.parsed ∧ st'.fs = st.fs ∧ st'.globLog = st.globLog) ∨
     (∃ tv tgt ms, globLoop tv tgt ms st.parsed st.fs st.globLog =
        some (st'.parsed, st'.fs, st'.globLog)) ∨
     (∃ mf, st'.parsed = parsedSet st.parsed mf FileParsed.individual ∧
        st'.globLog = st.globLog ∧
        (st'.fs = st.fs ∨ ∃ v, isSidecarVal v ∧
          st'.fs = fsWrite st.fs (withSuffix mf ".json") v))) := by
  unfold step at h
  split at h
  next => exact Option.noConfusion h
  next fields hobj =>
    split at h
    next targetStr hT =>
      split at h
      next fromFileStr hF =>
        dsimp only at h
        split at h
        next hnq =>
          cases h
          exact ⟨by simp [stepCS, hobj, hT, hF, hnq], Or.inl ⟨rfl, rfl, rfl⟩⟩
        next hq =>
          split at h
          next htok =>
            split at h
            next => exact Option.noConfusion h
            next parsed2 fs2 log2 hglob =>
              cases h
              exact ⟨by simp [stepCS, hobj, hT, hq, hF], Or.inr (Or.inl ⟨_, _, _, hglob⟩)⟩
          next hntok =>
            split at h
            next hisf =>
              split at h
              next hpl =>
                cases h
                exact ⟨by simp [stepCS, hobj, hT, hq, hF], Or.inl ⟨rfl, rfl, rfl⟩⟩
              next hpl =>
                split at h
                next => exact Option.noConfusion h
                next hcr =>
                  cases h
                  exact ⟨by simp [stepCS, hobj, hT, hq, hF],
                    Or.inr (Or.inr ⟨_, rfl, rfl, Or.inl rfl⟩)⟩
                next v hcr =>
                  split at h
                  next => exact Option.noConfusion h
                  next fs2 hw =>
                    rw [_write_and_backup_force] at hw
                    cases hw
                    cases h
                    exact ⟨by simp [stepCS, hobj, hT, hq, hF],
                      Or.inr (Or.inr ⟨_, rfl, rfl,
                        Or.inr ⟨v, create_metadata_json_sidecar hcr, rfl⟩⟩)⟩
            next hnisf =>
              cases h
              exact ⟨by simp [stepCS, hobj, hT, hq, hF], Or.inl ⟨rfl, rfl, rfl⟩⟩
      next hF =>
        dsimp only at h
        split at h
        next hnq =>
          cases h
          refine ⟨?_, Or.inl ⟨rfl, rfl, rfl⟩⟩
          rcases hLF : lookupField fields "FromFile" with _ | v
          · simp [stepCS, hobj, hT, hLF, hnq]
          · cases v with
            | str s => exact (hF s hLF).elim
            | null => simp [stepCS, hobj, hT, hLF, hnq]
            | bool b => simp [stepCS, hobj, hT, hLF, hnq]
            | num n => simp [stepCS, hobj, hT, hLF, hnq]
            | arr xs => simp [stepCS, hobj, hT, hLF, hnq]
            | obj gs => simp [stepCS, hobj, hT, hLF, hnq]
        next hq => exact Option.noConfusion h
    next hT => exact Option.noConfusion h

/-- A successful iteration evolves the filesystem by sidecar writes only,
grows the tracking set, and preserves the log invariant. -/
theorem step_inv (hdP hdPP : Path) (i : Nat) (e : JVal) (st st' : LoopState)
    (h : step hdP hdPP i e st = some st') :
    FsEvolves st.fs st'.fs ∧ ParsedMono st.parsed st'.parsed ∧
      (LogInv st.parsed st.globLog → LogInv st'.parsed st'.globLog) := by
  obtain ⟨-, hc⟩ := step_cases hdP hdPP i e st st' h
  rcases hc with ⟨hp, hf, hl⟩ | ⟨tv, tgt, ms, hglob⟩ | ⟨mf, hp, hl, hf⟩
  · rw [hp, hf, hl]
    exact ⟨fsEvolves_refl _, parsedMono_refl _, id⟩
  · exact globLoop_spec tv tgt ms hglob
  · rw [hp, hl]
    refine ⟨?_, parsedMono_set _ _ _, ?_⟩
    · rcases hf with hf | ⟨v, hv, hf⟩
      · rw [hf]; exact fsEvolves_refl _
      · rw [hf]; exact fsEvolves_write _ _ _ hv
    · intro hi
      exact ⟨hi.1, fun p hp2 => parsedMono_set _ _ _ p (hi.2 p hp2)⟩

/-- The final store and live list of a successful loop are the pure fold of
`stepCS` over the enumerated entries: they do not depend on the filesystem. -/
theorem stepLoop_cs (hdP hdPP : Path) (pending : List (Nat × JVal))
    (st st' : LoopState) (h : stepLoop hdP hdPP pending st = some st') :
    (st'.store, st'.changes) =
      pending.foldl (stepCS hdP hdPP) (st.store, st.changes) := by
  induction pending generalizing st with
  | nil =>
    simp only [stepLoop, Option.some.injEq] at h
    subst h
    rfl
  | cons ie rest ih =>
    rcases ie with ⟨i, e⟩
    simp only [stepLoop] at h
    split at h
    next => exact Option.noConfusion h
    next st1 hstep =>
      have h1 := step_cases hdP hdPP i e st st1 hstep
      rw [List.foldl_cons, ← h1.1]
      exact ih st1 h

/-- Invariant propagation along the whole loop. -/
theorem stepLoop_inv (hdP hdPP : Path) (pending : List (Nat × JVal))
    (st st' : LoopState) (h : stepLoop hdP hdPP pending st = some st') :
    FsEvolves st.fs st'.fs ∧ ParsedMono st.parsed st'.parsed ∧
      (LogInv st.parsed st.globLog → LogInv st'.parsed st'.globLog) := by
  induction pending generalizing st with
  | nil =>
    simp only [stepLoop, Option.some.injEq] at h
    subst h
    exact ⟨fsEvolves_refl _, parsedMono_refl _, id⟩
  | cons ie rest ih =>
    rcases ie with ⟨i, e⟩
    simp only [stepLoop] at h
    split at h
    next => exact Option.noConfusion h
    next st1 hstep =>
      obtain ⟨he1, hm1, hl1⟩ := step_inv hdP hdPP i e st st1 hstep
      obtain ⟨he2, hm2, hl2⟩ := ih st1 h
      exact ⟨fsEvolves_trans he1 he2, parsedMono_trans hm1 hm2, fun hi => hl2 (hl1 hi)⟩

/-- The rewritten Changes list as a pure function of the original entries:
fold the per-entry update over the enumeration, then materialise the live list
against the final store. -/
def pureChanges (hd_portraits hd_portraits_patch : Path) (origEntries : List JVal) :
    List JVal :=
  let sc := origEntries.enum.foldl (stepCS hd_portraits hd_portraits_patch)
    (origEntries, (List.range origEntries.length).map Sum.inl)
  sc.2.map (resolveRef sc.1)

/-- Characterisation of a successful `processChanges` run: the output entry
list is the pure transform of the input (independent of the filesystem), the
filesystem evolves by sidecar writes only, and the glob-write log records no
path twice. -/
theorem processChanges_spec (hdP hdPP : Path) (origEntries : List JVal) (fs : FS)
    (out : List JVal) (fs' : FS) (log : List Path)
    (h : processChanges hdP hdPP origEntries fs = some (out, fs', log)) :
    out = pureChanges hdP hdPP origEntries ∧ FsEvolves fs fs' ∧ log.Nodup := by
  unfold processChanges at h
  split at h
  next => exact Option.noConfusion h
  next st hloop =>
    simp only [Option.some.injEq, Prod.mk.injEq] at h
    obtain ⟨hout, hfs, hlog⟩ := h
    have hcs := stepLoop_cs hdP hdPP _ _ _ hloop
    obtain ⟨hev, -, hli⟩ := stepLoop_inv hdP hdPP _ _ _ hloop
    have h1 : st.store =
        (List.foldl (stepCS hdP hdPP)
          (origEntries, (List.range origEntries.length).map Sum.inl)
          origEntries.enum).1 := by
      have := congrArg Prod.fst hcs
      simpa using this
    have h2 : st.changes =
        (List.foldl (stepCS hdP hdPP)
          (origEntries, (List.range origEntries.length).map Sum.inl)
          origEntries.enum).2 := by
      have := congrArg Prod.snd hcs
      simpa using this
    refine ⟨?_, ?_, ?_⟩
    · rw [← hout, pureChanges]
      rw [← h1, ← h2]
    · rw [← hfs]; exact hev
    · rw [← hlog]
      exact (hli ⟨List.nodup_nil, by intro p hp; simp at hp⟩).1

/-! Characterisation of the rewritten Changes list. -/

/-- A Change Entry the loop rewrites: an object whose `Target` is a string
with parent segment "Portraits" and whose `FromFile` is a string. -/
def portraitEntry (e : JVal) : Bool :=
  match e.asObj? with
  | some fields =>
    (match lookupField fields "Target" with
     | some (.str t) => parentStem (pathOfString t) == "Portraits"
     | _ => false) &&
    (match lookupField fields "FromFile" with
     | some (.str _) => true
     | _ => false)
  | none => false

/-- The "Load" form a qualifying entry is mutated into. -/
def loadEntryOf (hd_portraits : Path) (e : JVal) : JVal :=
  match e.asObj? with
  | some fields =>
    match lookupField fields "Target", lookupField fields "FromFile" with
    | some (.str t), some (.str f) =>
      .obj (loadItemOf hd_portraits fields (pathOfString t)
        (_get_variant_metadata_file (pathOfString f)
          (targetVariantOf (nameStem (pathOfString t))) "_"))
    | _, _ => e
  | none => e

/-- The "EditImage" entry inserted for a qualifying entry. -/
def editEntryOf (hd_portraits_patch : Path) (e : JVal) : JVal :=
  match e.asObj? with
  | some fields =>
    match lookupField fields "Target", lookupField fields "FromFile" with
    | some (.str t), some (.str f) =>
      .obj (editItemOf hd_portraits_patch fields (pathOfString t) (pathOfString f))
    | _, _ => e
  | none => e

theorem set_append_len {α : Type} (l₁ : List α) (a b : α) (l₂ : List α) :
    (l₁ ++ a :: l₂).set l₁.length b = l₁ ++ b :: l₂ := by
  rw [List.set_append]
  simp

theorem insertAt_append_len {α : Type} (l₁ l₂ : List α) (a : α) :
    insertAt l₁.length a (l₁ ++ l₂) = l₁ ++ a :: l₂ := by
  rw [insertAt, List.take_left, List.drop_left]

/-- On a qualifying entry, `stepCS` mutates the stored entry into its Load
form and inserts the EditImage entry at index `2 * i` of the live list. -/
theorem stepCS_portrait (hdP hdPP : Path) (i : Nat) (e : JVal)
    (he : portraitEntry e = true) (sc : List JVal × List (Nat ⊕ JVal)) :
    stepCS hdP hdPP sc (i, e) =
      (sc.1.set i (loadEntryOf hdP e),
       insertAt (2 * i) (Sum.inr (editEntryOf hdPP e)) sc.2) := by
  unfold portraitEntry at he
  split at he
  next fields hobj =>
    rw [Bool.and_eq_true] at he
    obtain ⟨h1, h2⟩ := he
    split at h1
    next targetStr hT =>
      split at h2
      next fromFileStr hF =>
        have hps : parentStem (pathOfString targetStr) = "Portraits" := eq_of_beq h1
        simp [stepCS, loadEntryOf, editEntryOf, hobj, hT, hF, hps]
      next => exact Bool.noConfusion h2
    next => exact Bool.noConfusion h1
  next => exact Bool.noConfusion he

/-- Folding `stepCS` over an all-qualifying suffix of the enumeration turns
the stored entries into their Load forms and interleaves the EditImage
entries, each landing immediately before its Load reference. -/
theorem stepCS_fold_interleave (hdP hdPP : Path) (suf : List JVal)
    (hq : ∀ e ∈ suf, portraitEntry e = true) :
    ∀ (pre : List JVal) (ip : List (Nat ⊕ JVal)),
      ip.length = 2 * pre.length →
      ((List.range' pre.length suf.length).zip suf).foldl (stepCS hdP hdPP)
        (pre ++ suf, ip ++ (List.range' pre.length suf.length).map Sum.inl) =
      (pre ++ suf.map (loadEntryOf hdP),
       ip ++ ((List.range' pre.length suf.length).zip suf).flatMap
         (fun je => [Sum.inr (editEntryOf hdPP je.2), Sum.inl je.1])) := by
  induction suf with
  | nil => intro pre ip _; simp
  | cons e rest ih =>
    intro pre ip hip
    rw [List.length_cons, List.range'_succ, List.zip_cons_cons, List.foldl_cons]
    rw [stepCS_portrait hdP hdPP pre.length e (hq e (List.mem_cons_self _ _)) _]
    have hset : (pre ++ e :: rest).set pre.length (loadEntryOf hdP e) =
        pre ++ loadEntryOf hdP e :: rest := set_append_len pre e _ rest
    have hins : insertAt (2 * pre.length) (Sum.inr (editEntryOf hdPP e))
        (ip ++ (Sum.inl pre.length :: (List.range' (pre.length + 1) rest.length).map Sum.inl)) =
        ip ++ Sum.inr (editEntryOf hdPP e) ::
          Sum.inl pre.length :: (List.range' (pre.length + 1) rest.length).map Sum.inl := by
      rw [← hip]
      exact insertAt_append_len ip _ _
    simp only [List.map_cons] at *
    rw [hset, hins]
    have hq2 : ∀ x ∈ rest, portraitEntry x = true :=
      fun x hx => hq x (List.mem_cons_of_mem _ hx)
    have ihe := ih hq2 (pre ++ [loadEntryOf hdP e])
      (ip ++ [Sum.inr (editEntryOf hdPP e), Sum.inl pre.length])
      (by simp [hip]; omega)
    simp only [List.length_append, List.length_singleton] at ihe
    have hre : pre.length + 1 = pre.length + 1 := rfl
    rw [show pre ++ loadEntryOf hdP e :: rest =
        (pre ++ [loadEntryOf hdP e]) ++ rest by simp]
    rw [show ip ++ Sum.inr (editEntryOf hdPP e) ::
          Sum.inl pre.length :: (List.range' (pre.length + 1) rest.length).map Sum.inl =
        (ip ++ [Sum.inr (editEntryOf hdPP e), Sum.inl pre.length]) ++
          (List.range' (pre.length + 1) rest.length).map Sum.inl by simp]
    rw [show (pre ++ [loadEntryOf hdP e]) ++ rest =
        (pre ++ [loadEntryOf hdP e]) ++ rest from rfl] at ihe
    rw [ihe]
    simp [List.flatMap_cons]

/-- For a document every entry of which qualifies, the rewritten Changes list
is exactly the interleaving of EditImage and Load entries in original order:
each original entry yields the adjacent pair EditImage-then-Load. -/
theorem pureChanges_interleave (hdP hdPP : Path) (origs : List JVal)
    (hq : ∀ e ∈ origs, portraitEntry e = true) :
    pureChanges hdP hdPP origs =
      origs.flatMap (fun e => [editEntryOf hdPP e, loadEntryOf hdP e]) := by
  unfold pureChanges
  have h0 := stepCS_fold_interleave hdP hdPP origs hq [] [] (by simp)
  simp only [List.length_nil, List.nil_append] at h0
  have henum : origs.enum = (List.range' 0 origs.length).zip origs := by
    rw [List.enum_eq_zip_range, List.range_eq_range']
  rw [henum, List.range_eq_range', h0]
  rw [List.map_flatMap]
  have hsnd : List.map Prod.snd ((List.range' 0 origs.length).zip origs) = origs :=
    List.map_snd_zip _ _ (by simp)
  conv_rhs => rw [← hsnd, List.flatMap_map]
  apply List.flatMap_congr
  intro x hx
  rcases x with ⟨j, e⟩
  rw [← henum] at hx
  rw [List.mk_mem_enum_iff_getElem?] at hx
  rw [List.getElem?_eq_some] at hx
  obtain ⟨hj, hje⟩ := hx
  simp only [List.map_cons, List.map_nil, resolveRef]
  have hjm : j < (origs.map (loadEntryOf hdP)).length := by simpa using hj
  rw [List.getD_eq_getElem _ _ hjm, List.getElem_map]
  rw [hje]

/-! Machinery for the full-run idempotence property. -/

theorem json_suffix_ne_content_bak (x : String) : x ++ ".json" ≠ "content.bak" := by
  intro h
  have hd : x.data ++ (".json" : String).data = ("content.bak" : String).data := by
    rw [← String.data_append, h]
  have hsplit : ("content.bak" : String).data =
      ("conten" : String).data ++ ("t.bak" : String).data := by decide
  rw [hsplit] at hd
  have hbd := (List.append_inj' hd (by decide)).2
  exact absurd hbd (by decide)

theorem json_suffix_ne_manifest_bak (x : String) : x ++ ".json" ≠ "manifest.bak" := by
  intro h
  have hd : x.data ++ (".json" : String).data = ("manifest.bak" : String).data := by
    rw [← String.data_append, h]
  have hsplit : ("manifest.bak" : String).data =
      ("manifes" : String).data ++ ("t.bak" : String).data := by decide
  rw [hsplit] at hd
  have hbd := (List.append_inj' hd (by decide)).2
  exact absurd hbd (by decide)

theorem withSuffix_json_ne_single (p : Path) (t : String)
    (ht : ∀ x, x ++ ".json" ≠ t) : withSuffix p ".json" ≠ [t] := by
  cases p with
  | nil => simp [withSuffix]
  | cons q qs =>
    intro h
    have h2 : (q :: qs).dropLast ++
        [stemStr (((q :: qs).getLast?).getD "") ++ ".json"] = [t] := h
    cases hd : (q :: qs).dropLast with
    | nil =>
      rw [hd] at h2
      simp only [List.nil_append, List.cons.injEq] at h2
      exact ht _ h2.1
    | cons a l =>
      rw [hd] at h2
      simp only [List.cons_append, List.cons.injEq] at h2
      exact absurd h2.2 (by simp)

/-- Loop evolution never touches a file whose single-segment name cannot be a
`.json`-suffixed write target. -/
theorem fsEvolves_read_single {fs fs' : FS} (h : FsEvolves fs fs') (t : String)
    (ht : ∀ x, x ++ ".json" ≠ t) : fsRead fs' [t] = fsRead fs [t] := by
  rcases h [t] with hq | ⟨⟨p, hp⟩, -⟩
  · exact hq
  · exact absurd hp.symm (withSuffix_json_ne_single p t ht)

/-- Unbacked write: the original is renamed to the backup, then the data is
written under the `.json` name. -/
theorem _write_and_backup_fresh (fs : FS) (file : Path) (v y : JVal)
    (hno : fsIsFile fs (withSuffix file ".bak") = false)
    (hy : fsRead fs file = some y) :
    _write_and_backup fs file v false =
      some (fsWrite (fsWrite (fsErase fs file) (withSuffix file ".bak") y)
        (withSuffix file ".json") v) := by
  unfold _write_and_backup fsRename
  rw [hno, hy]
  simp

/-- Backed-up write: the backup exists, so the data is written directly. -/
theorem _write_and_backup_existing (fs : FS) (file : Path) (v : JVal)
    (hyes : fsIsFile fs (withSuffix file ".bak") = true) :
    _write_and_backup fs file v false =
      some (fsWrite fs (withSuffix file ".json") v) := by
  unfold _write_and_backup
  rw [hyes]
  simp

/-- A sidecar document has no Changes list. -/
theorem sidecar_no_changes {v : JVal} (hv : isSidecarVal v) :
    ∃ fields, v.asObj? = some fields ∧ lookupField fields "Changes" = none := by
  obtain ⟨n, s, rfl⟩ := hv
  refine ⟨_, rfl, ?_⟩
  have h1 : ("Size" : String) ≠ "Changes" := by decide
  have h2 : ("Portrait" : String) ≠ "Changes" := by decide
  simp [lookupField, h1, h2]

/-- Anatomy of a successful run: the values read, the loop result and the two
backed-up writes, in evaluation order. -/
theorem run_shape (fs0 fsF : FS) (hdP hdPP : Path)
    (h : content_patcher_portraits fs0 hdP hdPP = some fsF) :
    ∃ (c0 : JVal) (cf : List (String × JVal)) (chs : JVal) (origs : List JVal)
      (out : List JVal) (fsL : FS) (log : List Path) (fsMid : FS) (m1 mOut : JVal),
      fsRead fs0 (_get_file_or_backup fs0 contentJsonPath) = some c0 ∧
      c0.asObj? = some cf ∧
      lookupField cf "Changes" = some chs ∧
      chs.asArr? = some origs ∧
      processChanges hdP hdPP origs fs0 = some (out, fsL, log) ∧
      _write_and_backup fsL (_get_file_or_backup fs0 contentJsonPath)
        (.obj (setField (setField cf "Changes" (.arr out)) "Format" (.str "1.28.0")))
        false = some fsMid ∧
      fsRead fsMid (_get_file_or_backup fsMid manifestJsonPath) = some m1 ∧
      updateDependenciesVal m1 = some mOut ∧
      _write_and_backup fsMid (_get_file_or_backup fsMid manifestJsonPath) mOut
        false = some fsF := by
  unfold content_patcher_portraits at h
  dsimp only at h
  split at h
  next => exact Option.noConfusion h
  next c0 hr0 =>
    split at h
    next => exact Option.noConfusion h
    next cf hcf =>
      split at h
      next => exact Option.noConfusion h
      next chs hchs =>
        split at h
        next => exact Option.noConfusion h
        next origs horigs =>
          split at h
          next => exact Option.noConfusion h
          next out fsL log hpc =>
            split at h
            next => exact Option.noConfusion h
            next fsMid hwc =>
              split at h
              next => exact Option.noConfusion h
              next mOut hud =>
                unfold update_dependencies at hud
                split at hud
                next => exact Option.noConfusion hud
                next m1 hm1 =>
                  exact ⟨c0, cf, chs, origs, out, fsL, log, fsMid, m1, mOut,
                    hr0, hcf, hchs, horigs, hpc, hwc, hm1, hud, h⟩

/-- The two output documents of a second run over the rewritten directory
coincide with those of the first run: the backup convention re-feeds the
original documents, and the document parts of the transformation do not
depend on the filesystem. -/
theorem run_idempotent_docs (hdP hdPP : Path) (fs0 fs1 fs2 : FS)
    (hcb : fsRead fs0 ["content.bak"] = none)
    (hmb : fsRead fs0 ["manifest.bak"] = none)
    (h1 : content_patcher_portraits fs0 hdP hdPP = some fs1)
    (h2 : content_patcher_portraits fs1 hdP hdPP = some fs2) :
    fsRead fs1 contentJsonPath = fsRead fs2 contentJsonPath ∧
    fsRead fs1 manifestJsonPath = fsRead fs2 manifestJsonPath := by
  obtain ⟨c0, cf, chs, origs, out, fsL, log, fsMid, m1, mOut,
    hr0, hcf, hchs, horigs, hpc, hwc, hm1, hud, hwm⟩ := run_shape _ _ _ _ h1
  have hwscb : withSuffix contentJsonPath ".bak" = ["content.bak"] := rfl
  have hwscj : withSuffix contentJsonPath ".json" = contentJsonPath := rfl
  have hwsmb : withSuffix manifestJsonPath ".bak" = ["manifest.bak"] := rfl
  have hwsmj : withSuffix manifestJsonPath ".json" = manifestJsonPath := rfl
  have hwsbb : withSuffix ["content.bak"] ".bak" = ["content.bak"] := rfl
  have hwsbj : withSuffix ["content.bak"] ".json" = contentJsonPath := rfl
  have hwsnb : withSuffix ["manifest.bak"] ".bak" = ["manifest.bak"] := rfl
  have hwsnj : withSuffix ["manifest.bak"] ".json" = manifestJsonPath := rfl
  have hgfb1 : _get_file_or_backup fs0 contentJsonPath = contentJsonPath := by
    unfold _get_file_or_backup
    rw [hwscb]
    simp [fsIsFile, hcb]
  rw [hgfb1] at hr0 hwc
  obtain ⟨hpure, hev, -⟩ := processChanges_spec _ _ _ _ _ _ _ hpc
  have hLcj : ∃ y, fsRead fsL contentJsonPath = some y ∧ (y = c0 ∨ isSidecarVal y) := by
    rcases hev contentJsonPath with hsame | ⟨-, v, hv, hsv⟩
    · exact ⟨c0, by rw [hsame]; exact hr0, Or.inl rfl⟩
    · exact ⟨v, hv, Or.inr hsv⟩
  obtain ⟨y, hLy, hy⟩ := hLcj
  have hLcb : fsRead fsL ["content.bak"] = none := by
    rw [fsEvolves_read_single hev _ json_suffix_ne_content_bak]
    exact hcb
  have hLmb : fsRead fsL ["manifest.bak"] = none := by
    rw [fsEvolves_read_single hev _ json_suffix_ne_manifest_bak]
    exact hmb
  have hwcEq := _write_and_backup_fresh fsL contentJsonPath
    (.obj (setField (setField cf "Changes" (.arr out)) "Format" (.str "1.28.0")))
    y (by rw [hwscb]; simp [fsIsFile, hLcb]) hLy
  rw [hwscb, hwscj] at hwcEq
  have hMid : fsMid = fsWrite (fsWrite (fsErase fsL contentJsonPath)
      ["content.bak"] y) contentJsonPath
      (.obj (setField (setField cf "Changes" (.arr out)) "Format" (.str "1.28.0"))) :=
    (Option.some.inj (hwcEq.symm.trans hwc)).symm
  have hMcj : fsRead fsMid contentJsonPath =
      some (.obj (setField (setField cf "Changes" (.arr out)) "Format" (.str "1.28.0"))) := by
    rw [hMid, fsRead_fsWrite_self]
  have hMcb : fsRead fsMid ["content.bak"] = some y := by
    rw [hMid, fsRead_fsWrite_ne _ _ _ _ (by decide), fsRead_fsWrite_self]
  have hMmb : fsRead fsMid ["manifest.bak"] = none := by
    rw [hMid, fsRead_fsWrite_ne _ _ _ _ (by decide),
      fsRead_fsWrite_ne _ _ _ _ (by decide), fsRead_fsErase,
      if_neg (by decide : ¬(["manifest.bak"] : Path) = contentJsonPath)]
    exact hLmb
  have hgfbM : _get_file_or_backup fsMid manifestJsonPath = manifestJsonPath := by
    unfold _get_file_or_backup
    rw [hwsmb]
    simp [fsIsFile, hMmb]
  rw [hgfbM] at hm1 hwm
  have hwmEq := _write_and_backup_fresh fsMid manifestJsonPath mOut m1
    (by rw [hwsmb]; simp [fsIsFile, hMmb]) hm1
  rw [hwsmb, hwsmj] at hwmEq
  have hFs1 : fs1 = fsWrite (fsWrite (fsErase fsMid manifestJsonPath)
      ["manifest.bak"] m1) manifestJsonPath mOut :=
    (Option.some.inj (hwmEq.symm.trans hwm)).symm
  have h1cj : fsRead fs1 contentJsonPath =
      some (.obj (setField (setField cf "Changes" (.arr out)) "Format" (.str "1.28.0"))) := by
    rw [hFs1, fsRead_fsWrite_ne _ _ _ _ (by decide),
      fsRead_fsWrite_ne _ _ _ _ (by decide), fsRead_fsErase,
      if_neg (by decide : ¬(contentJsonPath : Path) = manifestJsonPath)]
    exact hMcj
  have h1cb : fsRead fs1 ["content.bak"] = some y := by
    rw [hFs1, fsRead_fsWrite_ne _ _ _ _ (by decide),
      fsRead_fsWrite_ne _ _ _ _ (by decide), fsRead_fsErase,
      if_neg (by decide : ¬(["content.bak"] : Path) = manifestJsonPath)]
    exact hMcb
  have h1mj : fsRead fs1 manifestJsonPath = some mOut := by
    rw [hFs1, fsRead_fsWrite_self]
  have h1mb : fsRead fs1 ["manifest.bak"] = some m1 := by
    rw [hFs1, fsRead_fsWrite_ne _ _ _ _ (by decide), fsRead_fsWrite_self]
  obtain ⟨c0', cf', chs', origs', out', fsL', log', fsMid', m1', mOut',
    hr0', hcf', hchs', horigs', hpc', hwc', hm1', hud', hwm'⟩ := run_shape _ _ _ _ h2
  have hgfb2 : _get_file_or_backup fs1 contentJsonPath = ["content.bak"] := by
    unfold _get_file_or_backup
    rw [hwscb]
    simp [fsIsFile, h1cb]
  rw [hgfb2] at hr0' hwc'
  have hc0'E : c0' = y := by
    rw [h1cb] at hr0'
    exact (Option.some.inj hr0').symm
  have hyc0 : y = c0 := by
    rcases hy with h | hsc
    · exact h
    · exfalso
      obtain ⟨flds, hA, hB⟩ := sidecar_no_changes hsc
      rw [hc0'E, hA] at hcf'
      have hfl : flds = cf' := Option.some.inj hcf'
      rw [← hfl] at hchs'
      rw [hB] at hchs'
      exact Option.noConfusion hchs'
  have hc0c : c0' = c0 := hc0'E.trans hyc0
  rw [hc0c] at hcf'
  have hcfE : cf' = cf := by
    rw [hcf] at hcf'
    exact (Option.some.inj hcf').symm
  rw [hcfE] at hchs' hwc'
  have hchsE : chs' = chs := by
    rw [hchs] at hchs'
    exact (Option.some.inj hchs').symm
  rw [hchsE] at horigs'
  have horigsE : origs' = origs := by
    rw [horigs] at horigs'
    exact (Option.some.inj horigs').symm
  rw [horigsE] at hpc'
  obtain ⟨hpure', hev', -⟩ := processChanges_spec _ _ _ _ _ _ _ hpc'
  have houtE : out' = out := by rw [hpure, hpure']
  rw [houtE] at hwc'
  have h1cbc : fsRead fs1 ["content.bak"] = some c0 := by
    rw [h1cb, hyc0]
  have hL'cb : fsRead fsL' ["content.bak"] = some c0 := by
    rw [fsEvolves_read_single hev' _ json_suffix_ne_content_bak]
    exact h1cbc
  have hL'mb : fsRead fsL' ["manifest.bak"] = some m1 := by
    rw [fsEvolves_read_single hev' _ json_suffix_ne_manifest_bak]
    exact h1mb
  have hwc'Eq := _write_and_backup_existing fsL' ["content.bak"]
    (.obj (setField (setField cf "Changes" (.arr out)) "Format" (.str "1.28.0")))
    (by rw [hwsbb]; simp [fsIsFile, hL'cb])
  rw [hwsbj] at hwc'Eq
  have hMid' : fsMid' = fsWrite fsL' contentJsonPath
      (.obj (setField (setField cf "Changes" (.arr out)) "Format" (.str "1.28.0"))) :=
    (Option.some.inj (hwc'Eq.symm.trans hwc')).symm
  have hM'cj : fsRead fsMid' contentJsonPath =
      some (.obj (setField (setField cf "Changes" (.arr out)) "Format" (.str "1.28.0"))) := by
    rw [hMid', fsRead_fsWrite_self]
  have hM'mb : fsRead fsMid' ["manifest.bak"] = some m1 := by
    rw [hMid', fsRead_fsWrite_ne _ _ _ _ (by decide)]
    exact hL'mb
  have hgfbM' : _get_file_or_backup fsMid' manifestJsonPath = ["manifest.bak"] := by
    unfold _get_file_or_backup
    rw [hwsmb]
    simp [fsIsFile, hM'mb]
  rw [hgfbM'] at hm1' hwm'
  have hm1E : m1' = m1 := by
    rw [hM'mb] at hm1'
    exact (Option.some.inj hm1').symm
  rw [hm1E] at hud'
  have hmOutE : mOut' = mOut := by
    rw [hud] at hud'
    exact (Option.some.inj hud').symm
  rw [hmOutE] at hwm'
  have hwm'Eq := _write_and_backup_existing fsMid' ["manifest.bak"] mOut
    (by rw [hwsnb]; simp [fsIsFile, hM'mb])
  rw [hwsnj] at hwm'Eq
  have hFs2 : fs2 = fsWrite fsMid' manifestJsonPath mOut :=
    (Option.some.inj (hwm'Eq.symm.trans hwm')).symm
  constructor
  · rw [h1cj, hFs2, fsRead_fsWrite_ne _ _ _ _ (by decide)]
    exact hM'cj.symm
  · rw [h1mj, hFs2, fsRead_fsWrite_self]

/-! Non-portrait entries are inert. -/

/-- Target string of an entry, for reading off transformed documents. -/
def entryTargetStr (e : JVal) : Option String :=
  match e.asObj? with
  | some fields =>
    match lookupField fields "Target" with
    | some (.str s) => some s
    | _ => none
  | none => none

/-- An entry the loop skips: its Target parent segment is not "Portraits". -/
def entrySkipped (e : JVal) : Prop :=
  ∃ fields t, e.asObj? = some fields ∧
    lookupField fields "Target" = some (.str t) ∧
    parentStem (pathOfString t) ≠ "Portraits"

/-- A skipped entry leaves the loop state completely unchanged: no store
mutation, no insertion, no tracking, no filesystem write. -/
theorem step_skips_nonportrait (hdP hdPP : Path) (i : Nat) (e : JVal)
    (st : LoopState) (hsk : entrySkipped e) :
    step hdP hdPP i e st = some st := by
  obtain ⟨fields, t, hobj, hT, hnq⟩ := hsk
  rcases hLF : lookupField fields "FromFile" with _ | v
  · simp [step, hobj, hT, hLF, hnq]
  · cases v with
    | str s => simp [step, hobj, hT, hLF, hnq]
    | null => simp [step, hobj, hT, hLF, hnq]
    | bool b => simp [step, hobj, hT, hLF, hnq]
    | num n => simp [step, hobj, hT, hLF, hnq]
    | arr xs => simp [step, hobj, hT, hLF, hnq]
    | obj gs => simp [step, hobj, hT, hLF, hnq]

/-- The pure update also skips such an entry. -/
theorem stepCS_skip (hdP hdPP : Path) (i : Nat) (e : JVal)
    (sc : List JVal × List (Nat ⊕ JVal)) (hsk : entrySkipped e) :
    stepCS hdP hdPP sc (i, e) = sc := by
  obtain ⟨fields, t, hobj, hT, hnq⟩ := hsk
  rcases hLF : lookupField fields "FromFile" with _ | v
  · simp [stepCS, hobj, hT, hLF, hnq]
  · cases v with
    | str s => simp [stepCS, hobj, hT, hLF, hnq]
    | null => simp [stepCS, hobj, hT, hLF, hnq]
    | bool b => simp [stepCS, hobj, hT, hLF, hnq]
    | num n => simp [stepCS, hobj, hT, hLF, hnq]
    | arr xs => simp [stepCS, hobj, hT, hLF, hnq]
    | obj gs => simp [stepCS, hobj, hT, hLF, hnq]

/-- The store component of any update is at most a `set` at the entry index. -/
theorem stepCS_fst (hdP hdPP : Path) (ie : Nat × JVal)
    (sc : List JVal × List (Nat ⊕ JVal)) :
    (stepCS hdP hdPP sc ie).1 = sc.1 ∨
      ∃ w, (stepCS hdP hdPP sc ie).1 = sc.1.set ie.1 w := by
  unfold stepCS
  split
  · exact Or.inl rfl
  · split
    · split
      · dsimp only
        split
        · exact Or.inl rfl
        · exact Or.inr ⟨_, rfl⟩
      · dsimp only
        split
        · exact Or.inl rfl
        · exact Or.inl rfl
    · exact Or.inl rfl

/-- The live-list component of any update preserves membership. -/
theorem stepCS_snd_mem (hdP hdPP : Path) (ie : Nat × JVal)
    (sc : List JVal × List (Nat ⊕ JVal)) (x : Nat ⊕ JVal) (hx : x ∈ sc.2) :
    x ∈ (stepCS hdP hdPP sc ie).2 := by
  have hmem : ∀ (n : Nat) (a : Nat ⊕ JVal), x ∈ insertAt n a sc.2 := by
    intro n a
    rw [insertAt]
    have hx2 : x ∈ sc.2.take n ++ sc.2.drop n := by
      rw [List.take_append_drop]
      exact hx
    rcases List.mem_append.mp hx2 with h | h
    · exact List.mem_append_left _ h
    · exact List.mem_append_right _ (List.mem_cons_of_mem _ h)
  unfold stepCS
  split
  · exact hx
  · split
    · split
      · dsimp only
        split
        · exact hx
        · exact hmem _ _
      · dsimp only
        split
        · exact hx
        · exact hx
    · exact hx

theorem getD_set_ne {α : Type} (l : List α) (i j : Nat) (w d : α) (h : i ≠ j) :
    (l.set i w).getD j d = l.getD j d := by
  rcases Nat.lt_or_ge j l.length with hj | hj
  · have hj2 : j < (l.set i w).length := by simpa using hj
    rw [List.getD_eq_getElem _ _ hj2, List.getD_eq_getElem _ _ hj]
    exact List.getElem_set_ne h _
  · rw [List.getD_eq_default _ _ (by simpa using hj), List.getD_eq_default _ _ hj]

/-- Entries whose index is only ever skipped keep their stored value through
the whole fold. -/
theorem foldl_stepCS_store_getD (hdP hdPP : Path) (pairs : List (Nat × JVal))
    (j : Nat) (d : JVal)
    (hH : ∀ x, (j, x) ∈ pairs → entrySkipped x) :
    ∀ sc, (pairs.foldl (stepCS hdP hdPP) sc).1.getD j d = sc.1.getD j d := by
  induction pairs with
  | nil => intro sc; rfl
  | cons ie rest ih =>
    intro sc
    rcases ie with ⟨i, x⟩
    rw [List.foldl_cons]
    have hrest : ∀ y, (j, y) ∈ rest → entrySkipped y :=
      fun y hy => hH y (List.mem_cons_of_mem _ hy)
    by_cases hij : i = j
    · subst hij
      rw [stepCS_skip hdP hdPP i x sc (hH x (List.mem_cons_self _ _))]
      exact ih hrest sc
    · rw [ih hrest]
      rcases stepCS_fst hdP hdPP (i, x) sc with h | ⟨w, h⟩
      · rw [h]
      · rw [h]
        exact getD_set_ne _ _ _ _ _ hij

theorem foldl_stepCS_mem (hdP hdPP : Path) (pairs : List (Nat × JVal))
    (x : Nat ⊕ JVal) :
    ∀ sc, x ∈ sc.2 → x ∈ (pairs.foldl (stepCS hdP hdPP) sc).2 := by
  induction pairs with
  | nil => intro sc hx; exact hx
  | cons ie rest ih =>
    intro sc hx
    rw [List.foldl_cons]
    exact ih _ (stepCS_snd_mem hdP hdPP ie sc x hx)

/-- A skipped entry of a successful run appears unchanged in the output
Changes list. -/
theorem processChanges_nonportrait_member (hdP hdPP : Path) (origs : List JVal)
    (fs : FS) (out : List JVal) (fs' : FS) (log : List Path) (j : Nat)
    (hp : processChanges hdP hdPP origs fs = some (out, fs', log))
    (hj : j < origs.length) (hsk : entrySkipped (origs.getD j .null)) :
    origs.getD j .null ∈ out := by
  obtain ⟨hpure, -, -⟩ := processChanges_spec _ _ _ _ _ _ _ hp
  rw [hpure, pureChanges]
  have hH : ∀ x, (j, x) ∈ origs.enum → entrySkipped x := by
    intro x hx
    rw [List.mk_mem_enum_iff_getElem?, List.getElem?_eq_some] at hx
    obtain ⟨hlt, hx⟩ := hx
    rw [← List.getD_eq_getElem origs .null hlt] at hx
    rw [← hx]
    exact hsk
  have hst := foldl_stepCS_store_getD hdP hdPP origs.enum j JVal.null hH
    (origs, (List.range origs.length).map Sum.inl)
  have hmem := foldl_stepCS_mem hdP hdPP origs.enum (Sum.inl j)
    (origs, (List.range origs.length).map Sum.inl)
    (by simp; exact hj)
  refine List.mem_map.mpr ⟨Sum.inl j, hmem, ?_⟩
  simp only [resolveRef]
  exact hst

/-! Helper lemmas for the sidecar, variant, dependency and backup claims. -/

/-- When the legacy sidecar exists and holds an integral Scale, the generated
metadata is Size = Scale times 64 together with the passed target name. -/
theorem create_metadata_json_scale (fs : FS) (portrait_file : Path)
    (pf : List (String × JVal)) (s : Int) (t : String)
    (hp : fsRead fs (withSuffix portrait_file ".pytk.json") = some (.obj pf))
    (hs : lookupField pf "Scale" = some (.num s)) :
    create_metadata_json fs portrait_file t =
      some (some (.obj [("Size", .num (s * 64)), ("Portrait", .str t)])) := by
  unfold create_metadata_json
  rw [hp]
  simp [JVal.asObj?, hs]

/-- The Load form of a qualifying entry retains no PatchMode field. -/
theorem loadItemOf_no_patchmode (hdP : Path) (fields : List (String × JVal))
    (pn mf : Path) (hnd : (fields.map Prod.fst).Nodup) :
    lookupField (loadItemOf hdP fields pn mf) "PatchMode" = none := by
  unfold loadItemOf
  rw [lookupField_setField, if_neg (by decide : ¬("PatchMode" : String) = "FromFile")]
  rw [lookupField_setField, if_neg (by decide : ¬("PatchMode" : String) = "Target")]
  rw [lookupField_setField, if_neg (by decide : ¬("PatchMode" : String) = "Action")]
  exact lookupField_popField_self fields _ hnd

/-- The EditImage entry retains no PatchMode field. -/
theorem editItemOf_no_patchmode (hdPP : Path) (fields : List (String × JVal))
    (pn pf : Path) (hnd : (fields.map Prod.fst).Nodup) :
    lookupField (editItemOf hdPP fields pn pf) "PatchMode" = none := by
  unfold editItemOf
  rw [lookupField_setField, if_neg (by decide : ¬("PatchMode" : String) = "FromFile")]
  rw [lookupField_setField, if_neg (by decide : ¬("PatchMode" : String) = "Target")]
  rw [lookupField_setField, if_neg (by decide : ¬("PatchMode" : String) = "Action")]
  exact lookupField_popField_self fields _ hnd

/-- A name with no dot is its own stem. -/
theorem stemStr_dotfree (s : String) (h : '.' ∉ s.data) : stemStr s = s := by
  unfold stemStr
  dsimp only
  have hrev : '.' ∉ s.data.reverse := by simpa using h
  have hidx : s.data.reverse.indexOf '.' = s.data.reverse.length :=
    List.indexOf_eq_length.mpr hrev
  rw [hidx]
  simp

/-- Writing under the `.json` name never touches the `.bak` sibling. -/
theorem withSuffix_json_ne_bak (p : Path) (hne : p ≠ []) :
    withSuffix p ".json" ≠ withSuffix p ".bak" := by
  cases p with
  | nil => exact absurd rfl hne
  | cons q qs =>
    intro h
    have h2 : (q :: qs).dropLast ++
        [stemStr (((q :: qs).getLast?).getD "") ++ ".json"] =
        (q :: qs).dropLast ++
        [stemStr (((q :: qs).getLast?).getD "") ++ ".bak"] := h
    have h3 := List.append_cancel_left h2
    simp only [List.cons.injEq, and_true] at h3
    have h4 : (stemStr (((q :: qs).getLast?).getD "")).data ++
        (".json" : String).data =
        (stemStr (((q :: qs).getLast?).getD "")).data ++ (".bak" : String).data := by
      rw [← String.data_append, ← String.data_append, h3]
    have h5 := List.append_cancel_left h4
    exact absurd h5 (by decide)

/-- Count of Python-equal occurrences in a list. -/
def countPy (x : JVal) (xs : List JVal) : Nat :=
  (xs.filter (fun y => pyEq x y)).length

theorem countPy_append (x : JVal) (l1 l2 : List JVal) :
    countPy x (l1 ++ l2) = countPy x l1 + countPy x l2 := by
  simp [countPy, List.filter_append]

theorem containsPy_iff (l : List JVal) (x : JVal) :
    containsPy l x = true ↔ 0 < countPy x l := by
  induction l with
  | nil => simp [containsPy, countPy]
  | cons y ys ih =>
    by_cases hxy : pyEq x y = true
    · simp [containsPy, countPy, List.filter_cons, hxy]
    · have hxy2 : pyEq x y = false := Bool.eq_false_iff.mpr hxy
      have hco : containsPy (y :: ys) x = containsPy ys x := by
        simp [containsPy, hxy2]
      rw [hco, ih]
      simp [countPy, List.filter_cons, hxy2]

theorem countPy_removeFirstPy_self (x : JVal) (l : List JVal) :
    countPy x (removeFirstPy x l) = countPy x l - 1 := by
  induction l with
  | nil => simp [removeFirstPy, countPy]
  | cons y ys ih =>
    by_cases hxy : pyEq x y = true
    · simp [removeFirstPy, hxy, countPy, List.filter_cons]
    · have hxy2 : pyEq x y = false := Bool.eq_false_iff.mpr hxy
      simp only [removeFirstPy, hxy2, Bool.false_eq_true, if_false]
      simp [countPy, List.filter_cons, hxy2] at ih ⊢
      exact ih

theorem countPy_removeFirstPy_other (x z : JVal) (l : List JVal)
    (h : ∀ y, pyEq z y = true → pyEq x y = false) :
    countPy x (removeFirstPy z l) = countPy x l := by
  induction l with
  | nil => rfl
  | cons y ys ih =>
    by_cases hzy : pyEq z y = true
    · simp only [removeFirstPy, hzy, if_true]
      simp [countPy, List.filter_cons, h y hzy]
    · have hzy2 : pyEq z y = false := Bool.eq_false_iff.mpr hzy
      simp only [removeFirstPy, hzy2, Bool.false_eq_true, if_false]
      have ih2 : (List.filter (fun w => pyEq x w) (removeFirstPy z ys)).length =
          (List.filter (fun w => pyEq x w) ys).length := by
        simpa [countPy] using ih
      by_cases hxy : pyEq x y = true <;> simp [countPy, List.filter_cons, hxy, ih2]

/-- Two UniqueID records with distinct identifiers are never Python-equal to
the same value. -/
theorem pyEq_uid_disjoint (a b : String) (y : JVal) (hab : (b == a) = false)
    (h : pyEq (.obj [("UniqueID", .str a)]) y = true) :
    pyEq (.obj [("UniqueID", .str b)]) y = false := by
  cases y with
  | obj gs =>
    simp only [pyEq, Bool.and_eq_true] at h
    obtain ⟨hlen, hf⟩ := h
    simp only [pyEqFields, Bool.and_eq_true] at hf
    obtain ⟨hw, -⟩ := hf
    split at hw
    next w hlk =>
      cases w with
      | str sw =>
        simp only [pyEq] at hw
        have hsw : a = sw := eq_of_beq hw
        subst hsw
        simp [pyEq, pyEqFields, hlk, hab]
      | null => simp [pyEq] at hw
      | bool c => simp [pyEq] at hw
      | num n => simp [pyEq] at hw
      | arr xs => simp [pyEq] at hw
      | obj hs => simp [pyEq] at hw
    next => simp at hw
  | null => simp [pyEq] at h
  | bool c => simp [pyEq] at h
  | num n => simp [pyEq] at h
  | str sv => simp [pyEq] at h
  | arr xs => simp [pyEq] at h

/-- What the dependency rewrite does to the list: append the HDPortraits
record when absent, then drop the first PyTK record. -/
def depsRewrite (deps : List JVal) : List JVal :=
  removeFirstPy PYTK_DEPENDENCY
    (if !containsPy deps HD_PORTRAITS_DEPENDENCY then
      deps ++ [HD_PORTRAITS_DEPENDENCY]
    else deps)

/-- Value-level anatomy of the dependency rewrite when the manifest has a
Dependencies array: the output maps Dependencies to the rewritten list. -/
theorem updateDependenciesVal_deps (fields : List (String × JVal))
    (deps : List JVal)
    (hdep : lookupField fields "Dependencies" = some (.arr deps)) :
    ∃ gs, updateDependenciesVal (.obj fields) = some (.obj gs) ∧
      lookupField gs "Dependencies" = some (.arr (depsRewrite deps)) := by
  refine ⟨setField (setField fields "Dependencies" (.arr (depsRewrite deps)))
      "GeneratedBy" (.str GENERATED_BY), ?_, ?_⟩
  · simp [updateDependenciesVal, getDefaultList, hdep, JVal.asObj?, JVal.asArr?,
      depsRewrite]
  · rw [lookupField_setField,
      if_neg (by decide : ¬("Dependencies" : String) = "GeneratedBy"),
      lookupField_setField, if_pos rfl]

/-- A PyTK-equal record is never HDPortraits-equal. -/
theorem pyEq_pytk_not_hd (y : JVal) (h : pyEq PYTK_DEPENDENCY y = true) :
    pyEq HD_PORTRAITS_DEPENDENCY y = false :=
  pyEq_uid_disjoint "Platonymous.Toolkit" "tlitookilakin.HDPortraits" y
    (by decide) h

/-- An HDPortraits-equal record is never PyTK-equal. -/
theorem pyEq_hd_not_pytk (y : JVal) (h : pyEq HD_PORTRAITS_DEPENDENCY y = true) :
    pyEq PYTK_DEPENDENCY y = false :=
  pyEq_uid_disjoint "tlitookilakin.HDPortraits" "Platonymous.Toolkit" y
    (by decide) h

/-- Rewriting leaves the HDPortraits record exactly once when it was absent,
and does not change its multiplicity when present. -/
theorem depsRewrite_countHD (deps : List JVal) :
    countPy HD_PORTRAITS_DEPENDENCY (depsRewrite deps) =
      if countPy HD_PORTRAITS_DEPENDENCY deps = 0 then 1
      else countPy HD_PORTRAITS_DEPENDENCY deps := by
  unfold depsRewrite
  rw [countPy_removeFirstPy_other _ _ _ pyEq_pytk_not_hd]
  by_cases hc : containsPy deps HD_PORTRAITS_DEPENDENCY = true
  · have hpos := (containsPy_iff deps HD_PORTRAITS_DEPENDENCY).mp hc
    rw [hc]
    simp only [Bool.not_true, Bool.false_eq_true, if_false]
    rw [if_neg (by omega)]
  · have hz : countPy HD_PORTRAITS_DEPENDENCY deps = 0 := by
      by_contra hnz
      exact hc ((containsPy_iff deps HD_PORTRAITS_DEPENDENCY).mpr (by omega))
    have hc2 : containsPy deps HD_PORTRAITS_DEPENDENCY = false :=
      Bool.eq_false_iff.mpr hc
    rw [hc2]
    simp only [Bool.not_false, if_true]
    rw [countPy_append, hz, if_pos rfl]
    simp [countPy, List.filter_cons, show pyEq HD_PORTRAITS_DEPENDENCY
      HD_PORTRAITS_DEPENDENCY = true from rfl]

/-- Rewriting drops exactly one PyTK record when present, none otherwise. -/
theorem depsRewrite_countPYTK (deps : List JVal) :
    countPy PYTK_DEPENDENCY (depsRewrite deps) =
      countPy PYTK_DEPENDENCY deps - 1 := by
  unfold depsRewrite
  by_cases hc : containsPy deps HD_PORTRAITS_DEPENDENCY = true
  · rw [hc]
    simp only [Bool.not_true, Bool.false_eq_true, if_false]
    exact countPy_removeFirstPy_self _ _
  · have hc2 : containsPy deps HD_PORTRAITS_DEPENDENCY = false :=
      Bool.eq_false_iff.mpr hc
    rw [hc2]
    simp only [Bool.not_false, if_true]
    rw [countPy_removeFirstPy_self, countPy_append]
    simp [countPy, List.filter_cons, show pyEq PYTK_DEPENDENCY
      HD_PORTRAITS_DEPENDENCY = false from rfl]

theorem withName_append (dir : Path) (name n : String) :
    withName (dir ++ [name]) n = dir ++ [n] := by
  cases dir with
  | nil => rfl
  | cons d ds =>
    have h : withName ((d :: ds) ++ [name]) n =
        ((d :: ds) ++ [name]).dropLast ++ [n] := rfl
    rw [h, List.dropLast_concat]

theorem withSuffix_append (dir : Path) (name suffix : String) :
    withSuffix (dir ++ [name]) suffix = dir ++ [stemStr name ++ suffix] := by
  cases dir with
  | nil => rfl
  | cons d ds =>
    have h : withSuffix ((d :: ds) ++ [name]) suffix =
        ((d :: ds) ++ [name]).dropLast ++
          [stemStr ((((d :: ds) ++ [name]).getLast?).getD "") ++ suffix] := rfl
    rw [h, List.dropLast_concat, List.getLast?_concat]
    rfl

theorem dotfree_append (a b : String) (ha : '.' ∉ a.data) (hb : '.' ∉ b.data) :
    '.' ∉ (a ++ b).data := by
  rw [String.data_append]
  intro h
  rcases List.mem_append.mp h with h | h
  · exact ha h
  · exact hb h

/-! Fixtures: the default virtual-path targets of `main` and small concrete
mod directories used to instantiate the properties. -/

/-- Default first virtual-path target, `PurePath("Mods/HDPortraits")`. -/
def hd_portraits_default : Path := ["Mods", "HDPortraits"]

/-- Default second virtual-path target, `PurePath("Mods/HDPortraitsPatch")`. -/
def hd_portraits_patch_default : Path := ["Mods", "HDPortraitsPatch"]

/-- A non-portrait Change Entry (a map patch). -/
def mapEntry (k : String) : JVal :=
  .obj [("Action", .str "Load"), ("Target", .str ("Maps/" ++ k)),
    ("FromFile", .str ("maps/" ++ k ++ ".png"))]

/-- A portrait Change Entry carrying a PatchMode field. -/
def abigailEntry : JVal :=
  .obj [("Action", .str "Load"), ("Target", .str "Portraits/Abigail"),
    ("FromFile", .str "portraits/Abigail.png"), ("PatchMode", .str "Replace")]

/-- A second portrait Change Entry. -/
def haleyEntry : JVal :=
  .obj [("Action", .str "Load"), ("Target", .str "Portraits/Haley"),
    ("FromFile", .str "portraits/Haley.png")]

/-- Mixed document: two map entries, one portrait entry, one more map entry. -/
def mixedEntries : List JVal :=
  [mapEntry "a", mapEntry "b", abigailEntry, mapEntry "c"]

/-- A one-portrait mod directory whose legacy sidecar carries Scale `s`. -/
def scaleFS (s : Int) : FS :=
  [(["content.json"], .obj [("Changes", .arr [abigailEntry])]),
   (["portraits", "Abigail.png"], .null),
   (["portraits", "Abigail.pytk.json"], .obj [("Scale", .num s)]),
   (["manifest.json"], .obj [])]

/-- A mod directory whose portrait image has no legacy sidecar. -/
def noPytkFS : FS :=
  [(["content.json"], .obj [("Changes", .arr [.obj [("Action", .str "Load"),
      ("Target", .str "Portraits/Emily"), ("FromFile", .str "portraits/Emily.png")]])]),
   (["portraits", "Emily.png"], .null),
   (["manifest.json"], .obj [])]

/-- A mod directory with a pre-existing target sidecar for the portrait. -/
def staleSidecarFS : FS :=
  scaleFS 2 ++ [(["portraits", "Abigail.json"], .obj [("old", .null)])]

/-- A templated mod directory: one glob entry over two portraits with legacy
sidecars. -/
def globFS : FS :=
  [(["content.json"], .obj [("Changes", .arr [.obj [("Action", .str "Load"),
      ("Target", .str "Portraits/\x7b\x7bTarget\x7d\x7d"),
      ("FromFile", .str "portraits/\x7b\x7bTarget\x7d\x7d.png")]])]),
   (["portraits", "Abigail.png"], .null),
   (["portraits", "Abigail.pytk.json"], .obj [("Scale", .num 2)]),
   (["portraits", "Haley.png"], .null),
   (["portraits", "Haley.pytk.json"], .obj [("Scale", .num 4)]),
   (["manifest.json"], .obj [])]

/-- A minimal mod directory with an empty Changes list. -/
def emptyFS : FS :=
  [(["content.json"], .obj [("Changes", .arr [])]),
   (["manifest.json"], .obj [("Name", .str "SomeMod")])]

/-- Targets of the Changes entries of a patch document value. -/
def changesTargets (v : JVal) : Option (List (Option String)) :=
  match v.asObj? with
  | some fields =>
    match lookupField fields "Changes" with
    | some ch =>
      match ch.asArr? with
      | some l => some (l.map entryTargetStr)
      | none => none
    | none => none
  | none => none

/-- A templated portrait Change Entry. -/
def globEntry : JVal :=
  .obj [("Action", .str "Load"), ("Target", .str "Portraits/\x7b\x7bTarget\x7d\x7d"),
    ("FromFile", .str "portraits/\x7b\x7bTarget\x7d\x7d.png")]

theorem portraitEntry_elim (e : JVal) (he : portraitEntry e = true) :
    ∃ fields t f, e.asObj? = some fields ∧
      lookupField fields "Target" = some (.str t) ∧
      parentStem (pathOfString t) = "Portraits" ∧
      lookupField fields "FromFile" = some (.str f) := by
  unfold portraitEntry at he
  split at he
  next fields hobj =>
    rw [Bool.and_eq_true] at he
    obtain ⟨h1, h2⟩ := he
    split at h1
    next t hT =>
      split at h2
      next f hF => exact ⟨fields, t, f, hobj, hT, eq_of_beq h1, hF⟩
      next => exact Bool.noConfusion h2
    next => exact Bool.noConfusion h1
  next => exact Bool.noConfusion he

/-! The claims. -/

/-- C1 (amended): when every Change Entry of the document targets Portraits,
each entry yields exactly two output entries in adjacent positions, the
EditImage entry immediately before the Load entry, neither retaining a
PatchMode field; the insertion index `2 * i` realises this placement only
under that condition (see the counterexample for mixed documents, where the
pair can end up separated). -/
theorem c1_portrait_entries_interleaved (hdP hdPP : Path) (origs : List JVal)
    (fs : FS) (out : List JVal) (fs2 : FS) (log : List Path)
    (hq : ∀ e ∈ origs, portraitEntry e = true)
    (hrun : processChanges hdP hdPP origs fs = some (out, fs2, log)) :
    out = origs.flatMap (fun e => [editEntryOf hdPP e, loadEntryOf hdP e]) ∧
    (∀ e ∈ origs, ∀ fields, e.asObj? = some fields →
      (fields.map Prod.fst).Nodup →
      (∃ lf, loadEntryOf hdP e = .obj lf ∧ lookupField lf "PatchMode" = none) ∧
      (∃ ef, editEntryOf hdPP e = .obj ef ∧ lookupField ef "PatchMode" = none)) := by
  constructor
  · rw [(processChanges_spec _ _ _ _ _ _ _ hrun).1]
    exact pureChanges_interleave hdP hdPP origs hq
  · intro e he fields hobj hnd
    obtain ⟨fields2, t, f, hobj2, hT, hps, hF⟩ := portraitEntry_elim e (hq e he)
    rw [hobj] at hobj2
    have hfe : fields2 = fields := (Option.some.inj hobj2).symm
    subst hfe
    constructor
    · refine ⟨loadItemOf hdP fields2 (pathOfString t)
        (_get_variant_metadata_file (pathOfString f)
          (targetVariantOf (nameStem (pathOfString t))) "_"), ?_,
        loadItemOf_no_patchmode hdP fields2 _ _ hnd⟩
      simp [loadEntryOf, hobj, hT, hF]
    · refine ⟨editItemOf hdPP fields2 (pathOfString t) (pathOfString f), ?_,
        editItemOf_no_patchmode hdPP fields2 _ _ hnd⟩
      simp [editEntryOf, hobj, hT, hF]

/-- Witness for C1: a two-portrait document is rewritten into the interleaved
four-entry list. -/
theorem c1_witness :
    ∃ out fs2 log, processChanges hd_portraits_default hd_portraits_patch_default
      [abigailEntry, haleyEntry] [] = some (out, fs2, log) ∧
      out = [abigailEntry, haleyEntry].flatMap
        (fun e => [editEntryOf hd_portraits_patch_default e,
                   loadEntryOf hd_portraits_default e]) := by
  refine ⟨_, _, _, rfl, ?_⟩
  exact (c1_portrait_entries_interleaved hd_portraits_default
    hd_portraits_patch_default [abigailEntry, haleyEntry] [] _ _ _
    (by decide) rfl).1

/-- C1 counterexample: in a mixed document the insertion index `2 * i` places
the EditImage entry at the end, away from its Load entry: the rewritten
Targets show the Load entry at position 2 and the EditImage entry at position
4, with an unrelated map entry between them, refuting adjacency and the
immediately-before placement. -/
theorem c1_counterexample :
    ∃ out, processChanges hd_portraits_default hd_portraits_patch_default
        mixedEntries [] = some (out, [], []) ∧
      out.map entryTargetStr =
        [some "Maps/a", some "Maps/b", some "Mods/HDPortraits/Abigail",
         some "Maps/c", some "Mods/HDPortraitsPatch/Abigail"] ∧
      ¬(out.map entryTargetStr =
        [some "Maps/a", some "Maps/b", some "Mods/HDPortraitsPatch/Abigail",
         some "Mods/HDPortraits/Abigail", some "Maps/c"]) := by
  exact ⟨_, rfl, rfl, by decide⟩

/-- C2: running the transformation twice, the second run re-reading the
backups written by the first as the authoritative originals, produces equal
patch and manifest documents, hence byte-identical serialisations. -/
theorem c2_idempotent_documents (hdP hdPP : Path) (fs0 fs1 fs2 : FS)
    (hcb : fsRead fs0 ["content.bak"] = none)
    (hmb : fsRead fs0 ["manifest.bak"] = none)
    (h1 : content_patcher_portraits fs0 hdP hdPP = some fs1)
    (h2 : content_patcher_portraits fs1 hdP hdPP = some fs2) :
    fsRead fs1 contentJsonPath = fsRead fs2 contentJsonPath ∧
    fsRead fs1 manifestJsonPath = fsRead fs2 manifestJsonPath ∧
    (fsRead fs1 contentJsonPath).map json5_dump =
      (fsRead fs2 contentJsonPath).map json5_dump ∧
    (fsRead fs1 manifestJsonPath).map json5_dump =
      (fsRead fs2 manifestJsonPath).map json5_dump := by
  obtain ⟨hc, hm⟩ := run_idempotent_docs hdP hdPP fs0 fs1 fs2 hcb hmb h1 h2
  exact ⟨hc, hm, congrArg (Option.map json5_dump) hc,
    congrArg (Option.map json5_dump) hm⟩

/-- Witness for C2: two consecutive runs over the one-portrait directory
agree on both output documents. -/
theorem c2_witness :
    ∃ fs1 fs2,
      content_patcher_portraits (scaleFS 2) hd_portraits_default
        hd_portraits_patch_default = some fs1 ∧
      content_patcher_portraits fs1 hd_portraits_default
        hd_portraits_patch_default = some fs2 ∧
      (fsRead fs1 contentJsonPath = fsRead fs2 contentJsonPath ∧
       fsRead fs1 manifestJsonPath = fsRead fs2 manifestJsonPath ∧
       (fsRead fs1 contentJsonPath).map json5_dump =
         (fsRead fs2 contentJsonPath).map json5_dump ∧
       (fsRead fs1 manifestJsonPath).map json5_dump =
         (fsRead fs2 manifestJsonPath).map json5_dump) := by
  refine ⟨_, _, rfl, rfl, ?_⟩
  exact c2_idempotent_documents hd_portraits_default hd_portraits_patch_default
    (scaleFS 2) _ _ rfl rfl rfl rfl

/-- C3: a Change Entry whose Target parent segment is not "Portraits" leaves
the loop state untouched (no store mutation, no insertion, no tracking entry,
no filesystem write) and appears unchanged in the output document. -/
theorem c3_nonportrait_passthrough (hdP hdPP : Path) :
    (∀ (i : Nat) (e : JVal) (st : LoopState), entrySkipped e →
      step hdP hdPP i e st = some st) ∧
    (∀ (origs : List JVal) (fs : FS) (out : List JVal) (fs2 : FS)
       (log : List Path) (j : Nat),
      processChanges hdP hdPP origs fs = some (out, fs2, log) →
      j < origs.length → entrySkipped (origs.getD j .null) →
      origs.getD j .null ∈ out) :=
  ⟨fun i e st h => step_skips_nonportrait hdP hdPP i e st h,
   fun origs fs out fs2 log j hp hj hsk =>
     processChanges_nonportrait_member hdP hdPP origs fs out fs2 log j hp hj hsk⟩

/-- Witness for C3: a map entry is skipped by the loop body and survives the
mixed-document run unchanged. -/
theorem c3_witness :
    (step hd_portraits_default hd_portraits_patch_default 0 (mapEntry "a")
      { store := [], changes := [], parsed := [], fs := [], globLog := [] } =
      some { store := [], changes := [], parsed := [], fs := [], globLog := [] }) ∧
    ∃ out fs2 log, processChanges hd_portraits_default hd_portraits_patch_default
        mixedEntries [] = some (out, fs2, log) ∧
      mixedEntries.getD 0 .null ∈ out := by
  constructor
  · exact (c3_nonportrait_passthrough hd_portraits_default
      hd_portraits_patch_default).1 0 (mapEntry "a") _ ⟨_, _, rfl, rfl, by decide⟩
  · refine ⟨_, _, _, rfl, ?_⟩
    exact (c3_nonportrait_passthrough hd_portraits_default
      hd_portraits_patch_default).2 mixedEntries [] _ _ _ 0 rfl (by decide)
      ⟨_, _, rfl, rfl, by decide⟩

set_option maxHeartbeats 2000000 in
/-- C4: a legacy sidecar holding Scale `s` produces a target sidecar mapping
Size to `s * 64` and Portrait to the passed target name; in the run the name
passed is the edit-prefixed target stem, equal to the EditImage entry Target
of the rewritten document, and Scale 2 yields Size 128. -/
theorem c4_sidecar_size_scale :
    (∀ (fs : FS) (portrait_file : Path) (pf : List (String × JVal)) (s : Int)
       (target_name : String),
      fsRead fs (withSuffix portrait_file ".pytk.json") = some (.obj pf) →
      lookupField pf "Scale" = some (.num s) →
      create_metadata_json fs portrait_file target_name =
        some (some (.obj [("Size", .num (s * 64)), ("Portrait", .str target_name)]))) ∧
    (∀ s : Int,
      (content_patcher_portraits (scaleFS s) hd_portraits_default
        hd_portraits_patch_default).map
        (fun fs2 => fsRead fs2 ["portraits", "Abigail.json"]) =
      some (some (.obj [("Size", .num (s * 64)),
        ("Portrait", .str "Mods/HDPortraitsPatch/Abigail")]))) ∧
    (∀ s : Int,
      (content_patcher_portraits (scaleFS s) hd_portraits_default
        hd_portraits_patch_default).map
        (fun fs2 => (fsRead fs2 contentJsonPath).bind changesTargets) =
      some (some [some "Mods/HDPortraitsPatch/Abigail",
        some "Mods/HDPortraits/Abigail"])) ∧
    ((content_patcher_portraits (scaleFS 2) hd_portraits_default
        hd_portraits_patch_default).map
        (fun fs2 => fsRead fs2 ["portraits", "Abigail.json"]) =
      some (some (.obj [("Size", .num 128),
        ("Portrait", .str "Mods/HDPortraitsPatch/Abigail")]))) :=
  ⟨create_metadata_json_scale, fun _ => rfl, fun _ => rfl, rfl⟩

/-- Witness for C4: the Scale-3 sidecar evaluates to Size 192. -/
theorem c4_witness :
    create_metadata_json (scaleFS 3) ["portraits", "Abigail.png"]
      "Mods/HDPortraitsPatch/Abigail" =
      some (some (.obj [("Size", .num (3 * 64)),
        ("Portrait", .str "Mods/HDPortraitsPatch/Abigail")])) :=
  c4_sidecar_size_scale.1 (scaleFS 3) ["portraits", "Abigail.png"] _ 3 _ rfl rfl

/-- C5 (amended): the rewrite keeps the HDPortraits record present, appending
it exactly when absent and keeping its multiplicity otherwise, and drops one
PyTK record when present (no-op when absent); applying the rewrite twice
leaves the HDPortraits record exactly once provided it initially occurs at
most once (a duplicated input keeps its duplicates, see the counterexample). -/
theorem c5_dependency_rewrite (fields : List (String × JVal)) (deps : List JVal)
    (hdep : lookupField fields "Dependencies" = some (.arr deps)) :
    ∃ gs, updateDependenciesVal (.obj fields) = some (.obj gs) ∧
      ∃ deps1, lookupField gs "Dependencies" = some (.arr deps1) ∧
        0 < countPy HD_PORTRAITS_DEPENDENCY deps1 ∧
        countPy HD_PORTRAITS_DEPENDENCY deps1 =
          (if countPy HD_PORTRAITS_DEPENDENCY deps = 0 then 1
           else countPy HD_PORTRAITS_DEPENDENCY deps) ∧
        countPy PYTK_DEPENDENCY deps1 = countPy PYTK_DEPENDENCY deps - 1 ∧
        (countPy HD_PORTRAITS_DEPENDENCY deps ≤ 1 →
          ∃ gs2 deps2, updateDependenciesVal (.obj gs) = some (.obj gs2) ∧
            lookupField gs2 "Dependencies" = some (.arr deps2) ∧
            countPy HD_PORTRAITS_DEPENDENCY deps2 = 1) := by
  obtain ⟨gs, hup, hdeps⟩ := updateDependenciesVal_deps fields deps hdep
  refine ⟨gs, hup, depsRewrite deps, hdeps, ?_, depsRewrite_countHD deps,
    depsRewrite_countPYTK deps, ?_⟩
  · rw [depsRewrite_countHD]
    split <;> omega
  · intro hle
    obtain ⟨gs2, hup2, hdeps2⟩ :=
      updateDependenciesVal_deps gs (depsRewrite deps) hdeps
    refine ⟨gs2, depsRewrite (depsRewrite deps), hup2, hdeps2, ?_⟩
    rw [depsRewrite_countHD, depsRewrite_countHD]
    rcases Nat.eq_zero_or_pos (countPy HD_PORTRAITS_DEPENDENCY deps) with h0 | hpos
    · rw [h0]
      simp
    · have h1 : countPy HD_PORTRAITS_DEPENDENCY deps = 1 := by omega
      rw [h1]
      simp

/-- Witness for C5: a manifest depending on PyTK only gains the HDPortraits
record and loses the PyTK record. -/
theorem c5_witness :
    ∃ gs deps1,
      updateDependenciesVal (.obj [("Dependencies", .arr [PYTK_DEPENDENCY])]) =
        some (.obj gs) ∧
      lookupField gs "Dependencies" = some (.arr deps1) ∧
      0 < countPy HD_PORTRAITS_DEPENDENCY deps1 ∧
      countPy PYTK_DEPENDENCY deps1 =
        countPy PYTK_DEPENDENCY [PYTK_DEPENDENCY] - 1 := by
  obtain ⟨gs, hup, deps1, hdeps, hpos, -, hpy, -⟩ :=
    c5_dependency_rewrite [("Dependencies", .arr [PYTK_DEPENDENCY])]
      [PYTK_DEPENDENCY] rfl
  exact ⟨gs, deps1, hup, hdeps, hpos, hpy⟩

/-- C5 counterexample: a manifest whose Dependencies list already holds the
HDPortraits record twice still holds it twice after applying the rewrite
twice, not exactly once. -/
theorem c5_counterexample :
    ∃ v1 gs2 deps2,
      updateDependenciesVal (.obj [("Dependencies",
        .arr [HD_PORTRAITS_DEPENDENCY, HD_PORTRAITS_DEPENDENCY])]) = some v1 ∧
      updateDependenciesVal v1 = some (.obj gs2) ∧
      lookupField gs2 "Dependencies" = some (.arr deps2) ∧
      countPy HD_PORTRAITS_DEPENDENCY deps2 = 2 ∧
      ¬ countPy HD_PORTRAITS_DEPENDENCY deps2 = 1 := by
  refine ⟨_, _, _, rfl, rfl, rfl, rfl, ?_⟩
  decide

/-- C6 (amended): for a dot-free source stem, the metadata file keeps the
stem and appends Witch-style variants exactly when the stem does not already
end with the variant, always under a `.json` suffix; in particular the two
Abigail resolutions of the claim hold (for a stem still containing a dot the
final `with_suffix` call strips from that dot, see the counterexample). -/
theorem c6_variant_resolution :
    (∀ (dir : Path) (name variant : String),
      '.' ∉ (stemStr name).data → '.' ∉ variant.data →
      _get_variant_metadata_file (dir ++ [name]) (some variant) "_" =
        dir ++ [(if endsWithStr (stemStr name) variant then stemStr name
                 else stemStr name ++ "_" ++ variant) ++ ".json"]) ∧
    (∀ (dir : Path) (name : String), '.' ∉ (stemStr name).data →
      _get_variant_metadata_file (dir ++ [name]) none "_" =
        dir ++ [stemStr name ++ ".json"]) ∧
    (_get_variant_metadata_file ["portraits", "Abigail_Witch.png"]
      (targetVariantOf "Abigail_Witch") "_" = ["portraits", "Abigail_Witch.json"]) ∧
    (_get_variant_metadata_file ["portraits", "Abigail.png"]
      (targetVariantOf "Abigail_Witch") "_" = ["portraits", "Abigail_Witch.json"]) := by
  refine ⟨?_, ?_, rfl, rfl⟩
  · intro dir name variant hn hv
    unfold _get_variant_metadata_file
    dsimp only
    have hln : lastName (dir ++ [name]) = name := by
      rw [lastName, List.getLast?_concat]
      rfl
    rw [hln, withName_append, withSuffix_append]
    by_cases he : endsWithStr (stemStr name) variant = true
    · rw [if_pos he, stemStr_dotfree _ hn]
    · have he2 : endsWithStr (stemStr name) variant = false :=
        Bool.eq_false_iff.mpr he
      rw [he2]
      simp only [Bool.false_eq_true, if_false]
      rw [stemStr_dotfree _ (dotfree_append _ _
        (dotfree_append _ _ hn (by decide)) hv)]

  · intro dir name hn
    unfold _get_variant_metadata_file
    dsimp only
    have hln : lastName (dir ++ [name]) = name := by
      rw [lastName, List.getLast?_concat]
      rfl
    rw [hln, withName_append, withSuffix_append, stemStr_dotfree _ hn]

/-- Witness for C6: the plain Abigail stem with variant Witch resolves to the
variant-suffixed metadata name. -/
theorem c6_witness :
    _get_variant_metadata_file (["portraits"] ++ ["Abigail.png"]) (some "Witch") "_" =
      ["portraits"] ++ [(if endsWithStr (stemStr "Abigail.png") "Witch" then
          stemStr "Abigail.png"
        else stemStr "Abigail.png" ++ "_" ++ "Witch") ++ ".json"] :=
  c6_variant_resolution.1 ["portraits"] "Abigail.png" "Witch" (by decide) (by decide)

/-- C6 counterexample: for the source name `Abigail.v2.png`, whose stem
`Abigail.v2` still contains a dot, the final `with_suffix` call strips from
that last dot: with no variant the metadata file resolves to `Abigail.json`,
not the claimed stem + `.json` (`Abigail.v2.json`), and with variant `Witch`
it also resolves to `Abigail.json`, not `Abigail.v2_Witch.json`. -/
theorem c6_counterexample :
    _get_variant_metadata_file ["portraits", "Abigail.v2.png"] none "_" =
      ["portraits", "Abigail.json"] ∧
    ¬ _get_variant_metadata_file ["portraits", "Abigail.v2.png"] none "_" =
      ["portraits", "Abigail.v2.json"] ∧
    _get_variant_metadata_file ["portraits", "Abigail.v2.png"] (some "Witch") "_" =
      ["portraits", "Abigail.json"] ∧
    ¬ _get_variant_metadata_file ["portraits", "Abigail.v2.png"] (some "Witch") "_" =
      ["portraits", "Abigail.v2_Witch.json"] := by
  refine ⟨rfl, ?_, rfl, ?_⟩ <;> decide

/-- C7: the glob-branch write log of a successful run records no metadata
path twice; a match whose resolved metadata path is already recorded is
skipped without any state change; template tokens expand to the single
wildcard in the derived glob string. -/
theorem c7_glob_no_duplicate_writes (hdP hdPP : Path) :
    (∀ (origs : List JVal) (fs : FS) (out : List JVal) (fs2 : FS)
       (log : List Path),
      processChanges hdP hdPP origs fs = some (out, fs2, log) → log.Nodup) ∧
    (∀ (tv : Option String) (tgt : String) (g : Path) (rest : List Path)
       (parsed : List (Path × FileParsed)) (fs : FS) (log : List Path),
      (parsedLookup parsed (_get_variant_metadata_file g tv "_")).isSome = true →
      globLoop tv tgt (g :: rest) parsed fs log =
        globLoop tv tgt rest parsed fs log) ∧
    replaceTokens "portraits/\x7b\x7bTarget\x7d\x7d.png" = "portraits/*.png" :=
  ⟨fun origs fs out fs2 log h => (processChanges_spec _ _ _ _ _ _ _ h).2.2,
   globLoop_skip, rfl⟩

/-- Witness for C7: the templated run over two portraits logs two distinct
sidecar writes. -/
theorem c7_witness :
    ∃ out fs2 log, processChanges hd_portraits_default hd_portraits_patch_default
      [globEntry] globFS = some (out, fs2, log) ∧ log.Nodup := by
  refine ⟨_, _, _, rfl, ?_⟩
  exact (c7_glob_no_duplicate_writes hd_portraits_default
    hd_portraits_patch_default).1 [globEntry] globFS _ _ _ rfl

/-- C8: a portrait image without a legacy `.pytk.json` sidecar yields no
metadata and no error, and the run over such a directory completes without
writing a target sidecar for that image. -/
theorem c8_missing_legacy_sidecar :
    (∀ (fs : FS) (portrait_file : Path) (target_name : String),
      fsRead fs (withSuffix portrait_file ".pytk.json") = none →
      create_metadata_json fs portrait_file target_name = some none) ∧
    ((content_patcher_portraits noPytkFS hd_portraits_default
        hd_portraits_patch_default).map
      (fun fs2 => fsRead fs2 ["portraits", "Emily.json"]) = some none) := by
  constructor
  · intro fs p t h
    unfold create_metadata_json
    rw [h]
  · rfl

/-- Witness for C8: the Emily portrait has no legacy sidecar and its metadata
generation returns the silent skip. -/
theorem c8_witness :
    create_metadata_json noPytkFS ["portraits", "Emily.png"]
      "Mods/HDPortraitsPatch/Emily" = some none :=
  c8_missing_legacy_sidecar.1 noPytkFS ["portraits", "Emily.png"]
    "Mods/HDPortraitsPatch/Emily" rfl

/-- C9 (amended): every target-sidecar write of the run is forced: it
overwrites the `.json` name directly and never creates or touches the `.bak`
sibling, first write included. -/
theorem c9_sidecar_write_forced (fs : FS) (file : Path) (v : JVal)
    (hne : file ≠ []) :
    _write_and_backup fs file v true =
      some (fsWrite fs (withSuffix file ".json") v) ∧
    fsRead (fsWrite fs (withSuffix file ".json") v) (withSuffix file ".bak") =
      fsRead fs (withSuffix file ".bak") :=
  ⟨rfl, fsRead_fsWrite_ne _ _ _ _ (withSuffix_json_ne_bak file hne)⟩

/-- Witness for C9: a concrete forced sidecar write leaves the backup name
absent exactly as before. -/
theorem c9_witness :
    _write_and_backup staleSidecarFS ["portraits", "Abigail.json"]
      (.obj [("Size", .num 128), ("Portrait", .str "Mods/HDPortraitsPatch/Abigail")])
      true =
      some (fsWrite staleSidecarFS (withSuffix ["portraits", "Abigail.json"] ".json")
        (.obj [("Size", .num 128),
          ("Portrait", .str "Mods/HDPortraitsPatch/Abigail")])) ∧
    fsRead (fsWrite staleSidecarFS (withSuffix ["portraits", "Abigail.json"] ".json")
        (.obj [("Size", .num 128),
          ("Portrait", .str "Mods/HDPortraitsPatch/Abigail")]))
      (withSuffix ["portraits", "Abigail.json"] ".bak") =
      fsRead staleSidecarFS (withSuffix ["portraits", "Abigail.json"] ".bak") :=
  c9_sidecar_write_forced staleSidecarFS ["portraits", "Abigail.json"] _
    (by decide)

/-- C9 counterexample: the first sidecar write over a pre-existing sidecar
file overwrites it in place and creates no backup: after the run the old
content is gone and no `.bak` sibling exists. -/
theorem c9_counterexample :
    ∃ fs2, content_patcher_portraits staleSidecarFS hd_portraits_default
        hd_portraits_patch_default = some fs2 ∧
      fsRead staleSidecarFS ["portraits", "Abigail.json"] =
        some (.obj [("old", .null)]) ∧
      fsRead fs2 ["portraits", "Abigail.json"] =
        some (.obj [("Size", .num 128),
          ("Portrait", .str "Mods/HDPortraitsPatch/Abigail")]) ∧
      fsRead fs2 ["portraits", "Abigail.bak"] = none := by
  exact ⟨_, rfl, rfl, rfl, rfl⟩

/-- C10: a manifest with no Dependencies key does not fail: the defaultdict
access materialises an empty list and the rewrite returns Dependencies
holding exactly the HDPortraits record. -/
theorem c10_missing_dependencies_key (fields : List (String × JVal))
    (h : lookupField fields "Dependencies" = none) :
    ∃ gs, updateDependenciesVal (.obj fields) = some (.obj gs) ∧
      lookupField gs "Dependencies" = some (.arr [HD_PORTRAITS_DEPENDENCY]) := by
  refine ⟨setField (setField (fields ++ [("Dependencies", .arr [])])
      "Dependencies" (.arr [HD_PORTRAITS_DEPENDENCY])) "GeneratedBy"
      (.str GENERATED_BY), ?_, ?_⟩
  · simp [updateDependenciesVal, getDefaultList, h, JVal.asObj?, JVal.asArr?,
      containsPy, removeFirstPy,
      show pyEq PYTK_DEPENDENCY HD_PORTRAITS_DEPENDENCY = false from rfl]
  · rw [lookupField_setField,
      if_neg (by decide : ¬("Dependencies" : String) = "GeneratedBy"),
      lookupField_setField, if_pos rfl]

/-- Witness for C10: a manifest holding only a Name field gains exactly the
HDPortraits dependency. -/
theorem c10_witness :
    ∃ gs, updateDependenciesVal (.obj [("Name", .str "SomeMod")]) =
        some (.obj gs) ∧
      lookupField gs "Dependencies" = some (.arr [HD_PORTRAITS_DEPENDENCY]) :=
  c10_missing_dependencies_key [("Name", .str "SomeMod")] rfl

end PortraitPatch
